import Mathlib

/-!
# 9cc: tokenizer and streaming code emitter

A shallow embedding of `9cc.c` (a compiler for `+`/`-` chains of decimal
literals into x86-64 assembly text) together with theorems about it.

Conventions of the embedding:

* A C string is the list of its characters before the terminating NUL; a
  `char *` into the input is the suffix of the input that starts there.
* The linked list of tokens is a `List Token`; a `Token *` is the sub-list that
  starts at that token and `NULL` is `[]`.
* `error()` and reads through `NULL` are outcomes of type `Fault`.
* Standard output and standard error are the lists of the chunks written, in
  order; the text of a stream is their concatenation.
* `long` is 64 bits and `int` 32 bits (the emitted assembly is x86-64).
-/

namespace NineCC

/-! ## Data model -/

/-- Kinds of token (`TokenKind`). -/
inductive TokenKind
  | TK_RESERVED
  | TK_NUM
  | TK_EOF
deriving DecidableEq

/-- One token (`struct Token`); the `next` pointer is the rest of the list. -/
structure Token where
  kind : TokenKind
  val : Int
  str : List Char
deriving DecidableEq

/-- Ways a run can end other than by returning from `main`. -/
inductive Fault
  /-- The call `error(fmt, ...)`: the message goes to stderr, then `exit(1)`. -/
  | error (msg : String)
  /-- A read through a null `Token *`. -/
  | nullDeref
  /-- The step budget of a loop of the model ran out. -/
  | outOfFuel
deriving DecidableEq

deriving instance DecidableEq for Except

/-! ## The C library functions the program calls -/

/-- The function `isspace` in the C locale: space, `\t`, `\n`, `\v`, `\f`, `\r`. -/
def isspace (c : Char) : Bool :=
  c.toNat == 32 || (9 ≤ c.toNat && c.toNat ≤ 13)

/-- The function `isdigit`: `'0'` to `'9'`. -/
def isdigit (c : Char) : Bool :=
  48 ≤ c.toNat && c.toNat ≤ 57

/-- Largest `long`. -/
def LONG_MAX : Int := 2 ^ 63 - 1

/-- Smallest `long`. -/
def LONG_MIN : Int := -(2 ^ 63)

/-- Base-10 value of a list of digit characters, most significant first. -/
def decValue (ds : List Char) : Nat :=
  ds.foldl (fun a c => 10 * a + (c.toNat - 48)) 0

/-- The call `strtol(p, &p, 10)`: skip white space, read an optional sign and
the longest run of decimal digits, and return the value, clamped to the range
of `long`, with the position after the run. Without a digit the value is 0 and
the position is unchanged. -/
def strtol (p : List Char) : Int × List Char :=
  let q := p.dropWhile isspace
  let neg := q.head? == some '-'
  let r := if q.head? == some '-' || q.head? == some '+' then q.tail else q
  let ds := r.takeWhile isdigit
  if ds.isEmpty then (0, p)
  else if neg then (max (-(decValue ds : Int)) LONG_MIN, r.dropWhile isdigit)
  else (min (decValue ds : Int) LONG_MAX, r.dropWhile isdigit)

/-- Conversion of a `long` to `int`: the low 32 bits, read as two's complement. -/
def toInt (x : Int) : Int :=
  (x + 2 ^ 31) % 2 ^ 32 - 2 ^ 31

/-- What `cur->val = strtol(p, &p, 10)` stores when `p` is at a digit: the value
of the longest run of digits, clamped to `long`, converted to `int`. -/
def numVal (p : List Char) : Int :=
  toInt (min (decValue (p.takeWhile isdigit) : Int) LONG_MAX)

/-- The text `printf` writes for `%d`. -/
def fmt_d (v : Int) : String :=
  if v < 0 then "-" ++ Nat.repr v.natAbs else Nat.repr v.natAbs

/-! ## Tokenizer -/

/-- The character `s[0]` of a C string: the NUL terminator when `s` is empty. -/
def str0 (s : List Char) : Char :=
  s.headD (Char.ofNat 0)

/-- The function `new_token`: a zeroed token with the given kind and text is
linked after `cur`; here `cur` is the chain built so far, whose last element the
C pointer `cur` designates. -/
def new_token (kind : TokenKind) (cur : List Token) (str : List Char) : List Token :=
  cur ++ [⟨kind, 0, str⟩]

/-- The assignment `cur->val = v`. -/
def setVal : List Token → Int → List Token
  | [], _ => []
  | [t], v => [⟨t.kind, v, t.str⟩]
  | t :: u :: ts, v => t :: setVal (u :: ts) v

/-- The loop of `tokenize`, one iteration per unit of fuel, followed by the
final `new_token(TK_EOF, cur, p)`. -/
def tokenizeLoop : Nat → List Char → List Token → Except Fault (List Token)
  | 0, _, _ => .error .outOfFuel
  | fuel + 1, p, cur =>
    match p with
    | [] => .ok (new_token .TK_EOF cur p)
    | c :: rest =>
      if isspace c then tokenizeLoop fuel rest cur
      else if c = '+' ∨ c = '-' then
        tokenizeLoop fuel rest (new_token .TK_RESERVED cur p)
      else if isdigit c then
        tokenizeLoop fuel (strtol p).2 (setVal (new_token .TK_NUM cur p) (toInt (strtol p).1))
      else .error (.error "トークナイズできません")

/-- The function `tokenize`. Every iteration that does not fail consumes at
least one character, so `p.length + 1` steps are enough. -/
def tokenize (p : List Char) : Except Fault (List Token) :=
  tokenizeLoop (p.length + 1) p []

/-! ## Parser primitives over the cursor `token` -/

/-- The function `consume`. -/
def consume (op : Char) (token : List Token) : Except Fault (Bool × List Token) :=
  match token with
  | [] => .error .nullDeref
  | t :: next =>
    if t.kind ≠ .TK_RESERVED ∨ str0 t.str ≠ op then .ok (false, token)
    else .ok (true, next)

/-- The function `expect`. -/
def expect (op : Char) (token : List Token) : Except Fault (List Token) :=
  match token with
  | [] => .error .nullDeref
  | t :: next =>
    if t.kind ≠ .TK_RESERVED ∨ str0 t.str ≠ op then
      .error (.error ("\x27" ++ String.singleton op ++ "\x27ではありません"))
    else .ok next

/-- The function `expect_number`. -/
def expect_number (token : List Token) : Except Fault (Int × List Token) :=
  match token with
  | [] => .error .nullDeref
  | t :: next =>
    if t.kind ≠ .TK_NUM then .error (.error "数値ではありません")
    else .ok (t.val, next)

/-- The function `at_eof`. -/
def at_eof (token : List Token) : Except Fault Bool :=
  match token with
  | [] => .error .nullDeref
  | t :: _ => .ok (t.kind == .TK_EOF)

/-! ## The driver -/

/-- What a run leaves behind: the chunks written to each stream and how it
ended (`.ok n` when `main` returned `n`). -/
structure Outcome where
  stdout : List String
  stderr : List String
  result : Except Fault Int
deriving DecidableEq

/-- The run stops through `f` after `out` has been written to stdout; `error()`
writes its message and a line break to stderr first. -/
def abort (out : List String) (f : Fault) : Outcome :=
  match f with
  | .error msg => ⟨out, [msg, "\n"], .error f⟩
  | _ => ⟨out, [], .error f⟩

/-- Exit status of the process, when it ends in a defined way. -/
def Outcome.status (o : Outcome) : Option Int :=
  match o.result with
  | .ok n => some n
  | .error (.error _) => some 1
  | .error _ => none

/-- The `while (!at_eof())` loop of `main` and the lines after it; `out` is what
stdout holds so far. -/
def mainLoop : Nat → List Token → List String → Outcome
  | 0, _, out => abort out .outOfFuel
  | fuel + 1, token, out =>
    match at_eof token with
    | .error f => abort out f
    | .ok true => ⟨out ++ ["\tret\n"], [], .ok 0⟩
    | .ok false =>
      match consume '+' token with
      | .error f => abort out f
      | .ok (true, token) =>
        match expect_number token with
        | .error f => abort out f
        | .ok (v, token) => mainLoop fuel token (out ++ ["\tadd rax, " ++ fmt_d v ++ "\n"])
      | .ok (false, token) =>
        match expect '-' token with
        | .error f => abort out f
        | .ok token =>
          match expect_number token with
          | .error f => abort out f
          | .ok (v, token) => mainLoop fuel token (out ++ ["\tsub rax, " ++ fmt_d v ++ "\n"])

/-- The three lines `main` prints first. -/
def preamble : List String :=
  [".intel_syntax noprefix\n", ".globl main\n", "main:\n"]

/-- Everything `main` does once `token` is set: the preamble, the first number,
the loop and `ret`. Each iteration of the loop moves the cursor, so
`token.length` steps are enough. -/
def compile (token : List Token) : Outcome :=
  match expect_number token with
  | .error f => abort preamble f
  | .ok (v, rest) =>
    mainLoop token.length rest (preamble ++ ["\tmov rax, " ++ fmt_d v ++ "\n"])

/-- The function `main`; `argv` holds the program name and the arguments, and
`argc` is its length. -/
def main (argv : List (List Char)) : Outcome :=
  if argv.length ≠ 2 then ⟨[], ["引数の個数が正しくありません\n"], .ok 1⟩
  else
    match tokenize (argv.getD 1 []) with
    | .error f => abort [] f
    | .ok token => compile token

/-! ### The cursor along a run -/

/-- The loop of `main` exactly as in `mainLoop`, which also returns the log of
the values of `token` with which the primitives `at_eof`, `consume`, `expect`
and `expect_number` were called, in the order of the calls. -/
def mainLoopLog : Nat → List Token → List String → Outcome × List (List Token)
  | 0, _, out => (abort out .outOfFuel, [])
  | fuel + 1, token, out =>
    match at_eof token with
    | .error f => (abort out f, [token])
    | .ok true => (⟨out ++ ["\tret\n"], [], .ok 0⟩, [token])
    | .ok false =>
      match consume '+' token with
      | .error f => (abort out f, [token, token])
      | .ok (true, t1) =>
        match expect_number t1 with
        | .error f => (abort out f, [token, token, t1])
        | .ok (v, t2) =>
          ((mainLoopLog fuel t2 (out ++ ["\tadd rax, " ++ fmt_d v ++ "\n"])).1,
            token :: token :: t1 ::
              (mainLoopLog fuel t2 (out ++ ["\tadd rax, " ++ fmt_d v ++ "\n"])).2)
      | .ok (false, t1) =>
        match expect '-' t1 with
        | .error f => (abort out f, [token, token, t1])
        | .ok t2 =>
          match expect_number t2 with
          | .error f => (abort out f, [token, token, t1, t2])
          | .ok (v, t3) =>
            ((mainLoopLog fuel t3 (out ++ ["\tsub rax, " ++ fmt_d v ++ "\n"])).1,
              token :: token :: t1 :: t2 ::
                (mainLoopLog fuel t3 (out ++ ["\tsub rax, " ++ fmt_d v ++ "\n"])).2)

/-- The part of `main` after `tokenize` exactly as in `compile`, with the log
of the cursor values the primitives were called with. -/
def compileLog (token : List Token) : Outcome × List (List Token) :=
  match expect_number token with
  | .error f => (abort preamble f, [token])
  | .ok (v, rest) =>
    ((mainLoopLog token.length rest (preamble ++ ["\tmov rax, " ++ fmt_d v ++ "\n"])).1,
      token :: (mainLoopLog token.length rest
        (preamble ++ ["\tmov rax, " ++ fmt_d v ++ "\n"])).2)

/-! ## Vocabulary of the specification -/

/-- The tail `(('+' | '-') NUMBER)* END` of the grammar, on token kinds and
operator characters. -/
def isOpNumsEnd : List Token → Bool
  | [e] => e.kind == .TK_EOF
  | o :: n :: rest =>
    o.kind == .TK_RESERVED && (str0 o.str == '+' || str0 o.str == '-') &&
      n.kind == .TK_NUM && isOpNumsEnd rest
  | [] => false

/-- The grammar `program := NUMBER (('+' | '-') NUMBER)* END`. -/
def isProgram : List Token → Bool
  | n :: rest => n.kind == .TK_NUM && isOpNumsEnd rest
  | [] => false

/-- The `add` and `sub` lines for the pairs operator, number of a token list. -/
def instrLines : List Token → List String
  | o :: n :: rest =>
    ((if str0 o.str = '+' then "\tadd rax, " else "\tsub rax, ") ++ fmt_d n.val ++ "\n") ::
      instrLines rest
  | _ => []

/-- The token list ends in a token of kind `TK_EOF` and holds no other one. -/
def endsEOF : List Token → Bool
  | [] => false
  | [e] => e.kind == .TK_EOF
  | t :: u :: ts => t.kind != .TK_EOF && endsEOF (u :: ts)

/-- A character the tokenizer has no rule for. -/
def isOther (c : Char) : Bool :=
  !isspace c && !isdigit c && c != '+' && c != '-'

/-- What the parser can see of a token: its kind, the first character of its
text (the operator character of an operator token) and its value. -/
def Token.view (t : Token) : TokenKind × Char × Int :=
  (t.kind, str0 t.str, t.val)

/-- The token `t` of an input, as it stands in that input followed by `suf`. -/
def Token.followedBy (suf : List Char) (t : Token) : Token :=
  ⟨t.kind, t.val, t.str ++ suf⟩

/-- The position between `pre` and `suf` lies between two adjacent decimal
digits. -/
def betweenDigits (pre suf : List Char) : Bool :=
  pre.getLast?.any isdigit && suf.head?.any isdigit

/-! ### Prefixes of the grammar -/

/-- An operator token the grammar allows: `+` or `-`. -/
def isOperator (t : Token) : Bool :=
  t.kind == .TK_RESERVED && (str0 t.str == '+' || str0 t.str == '-')

/-- The form `(('+' | '-') NUMBER)*`. -/
def isOpNums : List Token → Bool
  | [] => true
  | o :: n :: rest => isOperator o && n.kind == .TK_NUM && isOpNums rest
  | [_] => false

/-- The form `NUMBER (('+' | '-') NUMBER)*` of a valid prefix of a program. -/
def isValidPrefix : List Token → Bool
  | n :: rest => n.kind == .TK_NUM && isOpNums rest
  | [] => false

/-- The longest prefix of the form `(('+' | '-') NUMBER)*`. -/
def opNumPrefix : List Token → List Token
  | o :: n :: rest =>
    if isOperator o && n.kind == .TK_NUM then o :: n :: opNumPrefix rest else []
  | _ => []

/-- The longest prefix of the form `NUMBER (('+' | '-') NUMBER)*`, empty when
the first token is not a number. -/
def validPrefix : List Token → List Token
  | n :: rest => if n.kind == .TK_NUM then n :: opNumPrefix rest else []
  | [] => []

/-- The instruction lines for a prefix `NUMBER (op NUMBER)*`: `mov` for the
first number, then `add` or `sub` for each pair. -/
def prefixLines : List Token → List String
  | n :: rest => ("\tmov rax, " ++ fmt_d n.val ++ "\n") :: instrLines rest
  | [] => []

/-- One move of the cursor: it stays, or it goes from a token to the successor
of that token. -/
def CursorStep (c c' : List Token) : Prop :=
  c' = c ∨ (c ≠ [] ∧ c' = c.tail)

/-! ### Source expressions and their value -/

/-- A decimal literal of the source: a non-empty run of digits whose base-10
value is at most 2^31-1. -/
def isLiteral (ds : List Char) : Bool :=
  !ds.isEmpty && ds.all isdigit && decide (decValue ds ≤ 2 ^ 31 - 1)

/-- One continuation `op literal` of a source expression, with the white space
written before the operator and between the operator and the literal. -/
structure OpLit where
  ws1 : List Char
  op : Char
  ws2 : List Char
  lit : List Char

/-- The continuation is well formed: white space, `+` or `-`, white space, a
literal. -/
def OpLit.wf (it : OpLit) : Bool :=
  it.ws1.all isspace && (it.op == '+' || it.op == '-') && it.ws2.all isspace &&
    isLiteral it.lit

/-- Text of the continuations `items` followed by the white space `trail`. -/
def tailText : List OpLit → List Char → List Char
  | [], trail => trail
  | it :: items, trail =>
    it.ws1 ++ (it.op :: (it.ws2 ++ (it.lit ++ tailText items trail)))

/-- Text of the source expression `first op1 lit1 op2 lit2 ...` with leading,
inner and trailing white space. -/
def srcText (lead first : List Char) (items : List OpLit) (trail : List Char) : List Char :=
  lead ++ (first ++ tailText items trail)

/-- Left-to-right evaluation of the continuations from the value `acc`. -/
def evalItems (acc : Int) (items : List OpLit) : Int :=
  items.foldl
    (fun v it => if it.op = '+' then v + (decValue it.lit : Int) else v - (decValue it.lit : Int))
    acc

/-- Value of the source expression, evaluated left to right over the integers. -/
def srcValue (first : List Char) (items : List OpLit) : Int :=
  evalItems (decValue first : Int) items

/-! ### Reading the emitted assembly text -/

/-- The integer a decimal literal with an optional minus sign denotes. -/
def parseDecimal (s : List Char) : Option Int :=
  match s with
  | [] => none
  | c :: r =>
    if c = '-' then
      if !r.isEmpty && r.all isdigit then some (-(decValue r : Int)) else none
    else if s.all isdigit then some (decValue s : Int) else none

/-- The operand of an instruction line, which is the mnemonic part, a decimal
literal and a line break. -/
def operand (mnemonic line : String) : Option Int :=
  if mnemonic.data.isPrefixOf line.data && line.data.getLast? == some '\n' then
    parseDecimal (line.data.drop mnemonic.data.length).dropLast
  else none

/-- Effect of one instruction line on the accumulator `rax`: `mov` sets it to
its literal, `add` adds its literal, `sub` subtracts its literal. -/
def execLine (rax : Int) (line : String) : Option Int :=
  match operand "\tmov rax, " line with
  | some v => some v
  | none =>
    match operand "\tadd rax, " line with
    | some v => some (rax + v)
    | none =>
      match operand "\tsub rax, " line with
      | some v => some (rax - v)
      | none => none

/-- Runs the lines of an emitted program in order from the accumulator value
`rax`: the lines of the preamble do nothing and `ret` ends the run with the
accumulator as result. -/
def runAsm : List String → Int → Option Int
  | [], _ => none
  | line :: rest, rax =>
    if line = "\tret\n" then some rax
    else if line ∈ preamble then runAsm rest rax
    else
      match execLine rax line with
      | some v => runAsm rest v
      | none => none

/-! ## Character classes -/

theorem isdigit_not_isspace {c : Char} (h : isdigit c = true) : isspace c = false := by
  simp only [isdigit, isspace, Bool.and_eq_true, decide_eq_true_eq] at h ⊢
  have h1 : (c.toNat == 32) = false := by
    rw [beq_eq_false_iff_ne]; omega
  have h2 : decide (c.toNat ≤ 13) = false := by
    rw [decide_eq_false_iff_not]; omega
  simp [h1, h2]

theorem isdigit_ne_plus {c : Char} (h : isdigit c = true) : c ≠ '+' := by
  rintro rfl; revert h; decide

theorem isdigit_ne_minus {c : Char} (h : isdigit c = true) : c ≠ '-' := by
  rintro rfl; revert h; decide

/-! ## `strtol` at a digit -/

theorem strtol_digit (c : Char) (rest : List Char) (h : isdigit c = true) :
    strtol (c :: rest) =
      (min (decValue ((c :: rest).takeWhile isdigit) : Int) LONG_MAX,
        (c :: rest).dropWhile isdigit) := by
  have hs := isdigit_not_isspace h
  have hp := isdigit_ne_plus h
  have hm := isdigit_ne_minus h
  simp [strtol, List.dropWhile, List.takeWhile, hs, h, hp, hm]

theorem dropWhile_length_le (f : Char → Bool) (l : List Char) :
    (l.dropWhile f).length ≤ l.length := by
  induction l with
  | nil => simp
  | cons a l ih =>
    simp only [List.dropWhile]
    split
    · simp only [List.length_cons]; omega
    · simp

/-! ## The tokenizer as a function of the remaining input -/

theorem setVal_new_token (k : TokenKind) (cur : List Token) (s : List Char) (v : Int) :
    setVal (new_token k cur s) v = cur ++ [⟨k, v, s⟩] := by
  induction cur with
  | nil => simp [new_token, setVal]
  | cons a cur ih =>
    cases cur with
    | nil => simp [new_token, setVal]
    | cons b cur =>
      show a :: setVal (new_token k (b :: cur) s) v = _
      rw [ih]
      rfl

theorem tokenizeLoop_nil (fuel : Nat) (cur : List Token) :
    tokenizeLoop (fuel + 1) [] cur = .ok (new_token .TK_EOF cur []) := rfl

theorem tokenizeLoop_cons (fuel : Nat) (c : Char) (rest : List Char) (cur : List Token) :
    tokenizeLoop (fuel + 1) (c :: rest) cur =
      if isspace c then tokenizeLoop fuel rest cur
      else if c = '+' ∨ c = '-' then
        tokenizeLoop fuel rest (new_token .TK_RESERVED cur (c :: rest))
      else if isdigit c then
        tokenizeLoop fuel (strtol (c :: rest)).2
          (setVal (new_token .TK_NUM cur (c :: rest)) (toInt (strtol (c :: rest)).1))
      else .error (.error "トークナイズできません") := rfl

/-- What is already linked stays in front of whatever the loop adds. -/
theorem tokenizeLoop_acc (fuel : Nat) (p : List Char) (cur : List Token) :
    tokenizeLoop fuel p cur = (tokenizeLoop fuel p []).map (cur ++ ·) := by
  induction fuel generalizing p cur with
  | zero => simp [tokenizeLoop, Except.map]
  | succ fuel ih =>
    cases p with
    | nil => simp [tokenizeLoop, Except.map, new_token]
    | cons c rest =>
      simp only [tokenizeLoop]
      split
      · exact ih rest cur
      · split
        · rw [ih rest (new_token _ cur _), ih rest (new_token _ [] _)]
          cases tokenizeLoop fuel rest [] <;> simp [Except.map, new_token]
        · split
          · rw [ih _ (setVal (new_token _ cur _) _), ih _ (setVal (new_token _ [] _) _)]
            simp only [setVal_new_token]
            cases tokenizeLoop fuel (strtol (c :: rest)).2 [] <;> simp [Except.map]
          · simp [Except.map]

/-- Fuel beyond the length of the input changes nothing. -/
theorem tokenizeLoop_fuel (fuel fuel' : Nat) (p : List Char) (cur : List Token)
    (h : p.length < fuel) (h' : p.length < fuel') :
    tokenizeLoop fuel p cur = tokenizeLoop fuel' p cur := by
  induction fuel generalizing fuel' p cur with
  | zero => omega
  | succ fuel ih =>
    cases fuel' with
    | zero => omega
    | succ fuel' =>
      cases p with
      | nil => simp [tokenizeLoop]
      | cons c rest =>
        simp only [List.length_cons] at h h'
        simp only [tokenizeLoop]
        split
        · exact ih _ _ _ (by omega) (by omega)
        · split
          · exact ih _ _ _ (by omega) (by omega)
          · split
            · rename_i hd
              rw [strtol_digit c rest hd]
              have hl : ((c :: rest).dropWhile isdigit).length ≤ rest.length := by
                simp only [List.dropWhile, hd]
                exact dropWhile_length_le _ _
              exact ih _ _ _ (by simp only; omega) (by simp only; omega)
            · rfl

theorem tokenize_nil : tokenize [] = .ok [⟨.TK_EOF, 0, []⟩] := rfl

theorem tokenize_space (c : Char) (rest : List Char) (h : isspace c = true) :
    tokenize (c :: rest) = tokenize rest := by
  rw [tokenize, List.length_cons, tokenizeLoop_cons, if_pos h, tokenize]

theorem tokenize_op (c : Char) (rest : List Char) (h : c = '+' ∨ c = '-') :
    tokenize (c :: rest) = (tokenize rest).map (⟨.TK_RESERVED, 0, c :: rest⟩ :: ·) := by
  have hs : ¬ (isspace c = true) := by rcases h with rfl | rfl <;> decide
  rw [tokenize, List.length_cons, tokenizeLoop_cons, if_neg hs, if_pos h, tokenizeLoop_acc,
    tokenize]
  rfl

theorem tokenize_digit (c : Char) (rest : List Char) (h : isdigit c = true) :
    tokenize (c :: rest) =
      (tokenize ((c :: rest).dropWhile isdigit)).map
        (⟨.TK_NUM, numVal (c :: rest), c :: rest⟩ :: ·) := by
  have hs : ¬ (isspace c = true) := by simp [isdigit_not_isspace h]
  have hpm : ¬ (c = '+' ∨ c = '-') := by
    rintro (h1 | h1)
    · exact isdigit_ne_plus h h1
    · exact isdigit_ne_minus h h1
  have hl : ((c :: rest).dropWhile isdigit).length ≤ rest.length := by
    simp only [List.dropWhile, h]
    exact dropWhile_length_le _ _
  rw [tokenize, List.length_cons, tokenizeLoop_cons, if_neg hs, if_neg hpm, if_pos h,
    tokenizeLoop_acc, setVal_new_token, strtol_digit c rest h, tokenize]
  simp only [List.nil_append]
  rw [tokenizeLoop_fuel (rest.length + 1) (((c :: rest).dropWhile isdigit).length + 1) _ _
    (by omega) (by omega)]
  rfl

theorem tokenize_other (c : Char) (rest : List Char) (hs : isspace c = false)
    (hp : c ≠ '+') (hm : c ≠ '-') (hd : isdigit c = false) :
    tokenize (c :: rest) = .error (.error "トークナイズできません") := by
  rw [tokenize, List.length_cons, tokenizeLoop_cons]
  simp [hs, hp, hm, hd]

/-! ## The parse loop on a token list -/

theorem mainLoop_succ (fuel : Nat) (token : List Token) (out : List String) :
    mainLoop (fuel + 1) token out =
      match at_eof token with
      | .error f => abort out f
      | .ok true => ⟨out ++ ["\tret\n"], [], .ok 0⟩
      | .ok false =>
        match consume '+' token with
        | .error f => abort out f
        | .ok (true, token) =>
          match expect_number token with
          | .error f => abort out f
          | .ok (v, token) =>
            mainLoop fuel token (out ++ ["\tadd rax, " ++ fmt_d v ++ "\n"])
        | .ok (false, token) =>
          match expect '-' token with
          | .error f => abort out f
          | .ok token =>
            match expect_number token with
            | .error f => abort out f
            | .ok (v, token) =>
              mainLoop fuel token (out ++ ["\tsub rax, " ++ fmt_d v ++ "\n"]) := rfl

theorem at_eof_cons (t : Token) (ts : List Token) :
    at_eof (t :: ts) = .ok (t.kind == .TK_EOF) := rfl

theorem consume_hit (op : Char) (t : Token) (ts : List Token)
    (hk : t.kind = .TK_RESERVED) (hc : str0 t.str = op) :
    consume op (t :: ts) = .ok (true, ts) := by
  simp [consume, hk, hc]

theorem consume_miss (op : Char) (t : Token) (ts : List Token)
    (h : t.kind ≠ .TK_RESERVED ∨ str0 t.str ≠ op) :
    consume op (t :: ts) = .ok (false, t :: ts) := by
  simp only [consume, if_pos h]

theorem expect_hit (op : Char) (t : Token) (ts : List Token)
    (hk : t.kind = .TK_RESERVED) (hc : str0 t.str = op) :
    expect op (t :: ts) = .ok ts := by
  simp [expect, hk, hc]

theorem expect_miss (op : Char) (t : Token) (ts : List Token)
    (h : t.kind ≠ .TK_RESERVED ∨ str0 t.str ≠ op) :
    expect op (t :: ts) =
      .error (.error ("\x27" ++ String.singleton op ++ "\x27ではありません")) := by
  simp only [expect, if_pos h]

theorem expect_number_hit (t : Token) (ts : List Token) (hk : t.kind = .TK_NUM) :
    expect_number (t :: ts) = .ok (t.val, ts) := by
  simp [expect_number, hk]

theorem expect_number_miss (t : Token) (ts : List Token) (hk : t.kind ≠ .TK_NUM) :
    expect_number (t :: ts) = .error (.error "数値ではありません") := by
  simp only [expect_number, if_pos hk]

/-- On a tail that matches the grammar the loop writes one line per pair and
`ret`, and `main` returns 0. -/
theorem mainLoop_accepts (fuel : Nat) (toks : List Token) (out : List String)
    (hf : toks.length < 2 * fuel) (h : isOpNumsEnd toks = true) :
    mainLoop fuel toks out = ⟨out ++ instrLines toks ++ ["\tret\n"], [], .ok 0⟩ := by
  induction fuel generalizing toks out with
  | zero => omega
  | succ fuel ih =>
    match toks, h with
    | [e], h =>
      have he : e.kind = .TK_EOF := by simpa [isOpNumsEnd] using h
      simp [mainLoop_succ, at_eof, he, instrLines]
    | o :: n :: rest, h =>
      simp only [isOpNumsEnd, Bool.and_eq_true, beq_iff_eq, Bool.or_eq_true] at h
      obtain ⟨⟨⟨ho, hc⟩, hn⟩, hr⟩ := h
      have hlen : rest.length < 2 * fuel := by
        simp only [List.length_cons] at hf; omega
      have heof : (o.kind == TokenKind.TK_EOF) = false := by rw [ho]; rfl
      rw [mainLoop_succ, at_eof_cons, heof]
      by_cases hplus : str0 o.str = '+'
      · rw [consume_hit _ _ _ ho hplus]
        simp only [expect_number_hit _ _ hn, ih rest _ hlen hr, instrLines, hplus, if_true]
        simp
      · have hminus : str0 o.str = '-' := by
          rcases hc with hc | hc
          · exact absurd hc hplus
          · exact hc
        rw [consume_miss _ _ _ (Or.inr hplus)]
        simp only [expect_hit _ _ _ ho hminus, expect_number_hit _ _ hn, ih rest _ hlen hr,
          instrLines, hplus, if_false]
        simp

theorem add_line_ne_ret (x : String) : "\tadd rax, " ++ x ++ "\n" ≠ "\tret\n" := by
  intro h
  have h2 := congrArg String.length h
  simp only [String.length_append] at h2
  have h3 : "\tadd rax, ".length = 10 := by decide
  have h4 : "\tret\n".length = 5 := by decide
  omega

theorem sub_line_ne_ret (x : String) : "\tsub rax, " ++ x ++ "\n" ≠ "\tret\n" := by
  intro h
  have h2 := congrArg String.length h
  simp only [String.length_append] at h2
  have h3 : "\tsub rax, ".length = 10 := by decide
  have h4 : "\tret\n".length = 5 := by decide
  omega

theorem mov_line_ne_ret (x : String) : "\tmov rax, " ++ x ++ "\n" ≠ "\tret\n" := by
  intro h
  have h2 := congrArg String.length h
  simp only [String.length_append] at h2
  have h3 : "\tmov rax, ".length = 10 := by decide
  have h4 : "\tret\n".length = 5 := by decide
  omega

theorem endsEOF_tail_of_num (n : Token) (rest : List Token) (hn : n.kind = .TK_NUM)
    (h : endsEOF (n :: rest) = true) : endsEOF rest = true := by
  cases rest with
  | nil => simp [endsEOF, hn] at h
  | cons u ts =>
    simp only [endsEOF, Bool.and_eq_true] at h
    exact h.2

/-- On a tail that ends in `TK_EOF` but does not match the grammar the loop
stops through `error()`, after writing only `add` and `sub` lines. -/
theorem mainLoop_rejects (fuel : Nat) (toks : List Token) (out : List String)
    (hf : toks.length < 2 * fuel) (he : endsEOF toks = true) (h : isOpNumsEnd toks = false) :
    ∃ msg lines, mainLoop fuel toks out = abort (out ++ lines) (.error msg) ∧
      ∀ l ∈ lines, l ≠ "\tret\n" := by
  induction fuel generalizing toks out with
  | zero => omega
  | succ fuel ih =>
    match toks, he, h with
    | [e], he, h =>
      have hk : e.kind = .TK_EOF := by simpa [endsEOF] using he
      simp [isOpNumsEnd, hk] at h
    | o :: n :: rest, he, h =>
      simp only [endsEOF, Bool.and_eq_true, bne_iff_ne, ne_eq] at he
      obtain ⟨ho, hrest⟩ := he
      have hlen : rest.length < 2 * fuel := by
        simp only [List.length_cons] at hf; omega
      have heof : (o.kind == TokenKind.TK_EOF) = false := by
        rw [beq_eq_false_iff_ne]; exact ho
      rw [mainLoop_succ, at_eof_cons, heof]
      by_cases hplus : o.kind = .TK_RESERVED ∧ str0 o.str = '+'
      · rw [consume_hit _ _ _ hplus.1 hplus.2]
        by_cases hn : n.kind = .TK_NUM
        · have hr : isOpNumsEnd rest = false := by
            simpa [isOpNumsEnd, hplus.1, hplus.2, hn] using h
          obtain ⟨msg, lines, hrun, hl⟩ :=
            ih rest (out ++ ["\tadd rax, " ++ fmt_d n.val ++ "\n"]) hlen
              (endsEOF_tail_of_num n rest hn hrest) hr
          refine ⟨msg, ("\tadd rax, " ++ fmt_d n.val ++ "\n") :: lines, ?_, ?_⟩
          · simp only [expect_number_hit _ _ hn, hrun, List.append_assoc, List.singleton_append]
          · intro l hmem
            rcases List.mem_cons.mp hmem with rfl | hmem
            · exact add_line_ne_ret _
            · exact hl l hmem
        · refine ⟨"数値ではありません", [], ?_, by simp⟩
          simp only [expect_number_miss _ _ hn, List.append_nil]
      · have hmiss : o.kind ≠ .TK_RESERVED ∨ str0 o.str ≠ '+' := by
          by_cases hk : o.kind = .TK_RESERVED
          · exact Or.inr (fun hc => hplus ⟨hk, hc⟩)
          · exact Or.inl hk
        rw [consume_miss _ _ _ hmiss]
        by_cases hminus : o.kind = .TK_RESERVED ∧ str0 o.str = '-'
        · by_cases hn : n.kind = .TK_NUM
          · have hr : isOpNumsEnd rest = false := by
              simpa [isOpNumsEnd, hminus.1, hminus.2, hn] using h
            obtain ⟨msg, lines, hrun, hl⟩ :=
              ih rest (out ++ ["\tsub rax, " ++ fmt_d n.val ++ "\n"]) hlen
                (endsEOF_tail_of_num n rest hn hrest) hr
            refine ⟨msg, ("\tsub rax, " ++ fmt_d n.val ++ "\n") :: lines, ?_, ?_⟩
            · simp only [expect_hit _ _ _ hminus.1 hminus.2, expect_number_hit _ _ hn, hrun,
                List.append_assoc, List.singleton_append]
            · intro l hmem
              rcases List.mem_cons.mp hmem with rfl | hmem
              · exact sub_line_ne_ret _
              · exact hl l hmem
          · refine ⟨"数値ではありません", [], ?_, by simp⟩
            simp only [expect_hit _ _ _ hminus.1 hminus.2, expect_number_miss _ _ hn,
              List.append_nil]
        · have hmiss2 : o.kind ≠ .TK_RESERVED ∨ str0 o.str ≠ '-' := by
            by_cases hk : o.kind = .TK_RESERVED
            · exact Or.inr (fun hc => hminus ⟨hk, hc⟩)
            · exact Or.inl hk
          refine ⟨"\x27" ++ String.singleton '-' ++ "\x27ではありません", [], ?_, by simp⟩
          simp only [expect_miss _ _ _ hmiss2, List.append_nil]

/-! ## Shape of the token list -/

theorem except_map_eq_ok {α β : Type} (f : α → β) (x : Except Fault α) (b : β)
    (h : x.map f = .ok b) : ∃ a, x = .ok a ∧ f a = b := by
  cases x with
  | error e => simp [Except.map] at h
  | ok a =>
    refine ⟨a, rfl, ?_⟩
    simpa [Except.map] using h

/-- Induction along the positions at which the loop of `tokenize` stands. -/
theorem tokenize_induction {P : List Char → Prop}
    (nil : P [])
    (space : ∀ c rest, isspace c = true → P rest → P (c :: rest))
    (op : ∀ c rest, c = '+' ∨ c = '-' → P rest → P (c :: rest))
    (digit : ∀ c rest, isdigit c = true → P ((c :: rest).dropWhile isdigit) → P (c :: rest))
    (other : ∀ c rest, isOther c = true → P (c :: rest))
    (p : List Char) : P p := by
  generalize hn : p.length = n
  induction n using Nat.strong_induction_on generalizing p with
  | _ n ih =>
    cases p with
    | nil => exact nil
    | cons c rest =>
      simp only [List.length_cons] at hn
      by_cases hs : isspace c = true
      · exact space c rest hs (ih rest.length (by omega) rest rfl)
      · by_cases hpm : c = '+' ∨ c = '-'
        · exact op c rest hpm (ih rest.length (by omega) rest rfl)
        · by_cases hd : isdigit c = true
          · have hl : ((c :: rest).dropWhile isdigit).length ≤ rest.length := by
              simp only [List.dropWhile, hd]
              exact dropWhile_length_le _ _
            exact digit c rest hd (ih _ (by omega) _ rfl)
          · apply other c rest
            simp only [not_or] at hpm
            simp [isOther, hs, hd, hpm.1, hpm.2]

theorem isOther_tokenize (c : Char) (rest : List Char) (h : isOther c = true) :
    tokenize (c :: rest) = .error (.error "トークナイズできません") := by
  simp only [isOther, Bool.and_eq_true, Bool.not_eq_true', bne_iff_ne, ne_eq] at h
  exact tokenize_other c rest h.1.1.1 h.1.2 h.2 h.1.1.2

theorem endsEOF_cons (t : Token) (ts : List Token) (ht : t.kind ≠ .TK_EOF)
    (h : endsEOF ts = true) : endsEOF (t :: ts) = true := by
  cases ts with
  | nil => simp [endsEOF] at h
  | cons u ts => simp [endsEOF, ht, h]

/-- Whatever `tokenize` returns ends in its only `TK_EOF` token. -/
theorem tokenize_endsEOF (p : List Char) :
    ∀ toks, tokenize p = .ok toks → endsEOF toks = true := by
  induction p using tokenize_induction with
  | nil =>
    intro toks h
    rw [tokenize_nil] at h
    cases h
    rfl
  | space c rest hs ih =>
    intro toks h
    rw [tokenize_space c rest hs] at h
    exact ih toks h
  | op c rest hc ih =>
    intro toks h
    rw [tokenize_op c rest hc] at h
    obtain ⟨ts, hts, rfl⟩ := except_map_eq_ok _ _ _ h
    exact endsEOF_cons _ _ (by simp) (ih ts hts)
  | digit c rest hd ih =>
    intro toks h
    rw [tokenize_digit c rest hd] at h
    obtain ⟨ts, hts, rfl⟩ := except_map_eq_ok _ _ _ h
    exact endsEOF_cons _ _ (by simp) (ih ts hts)
  | other c rest ho =>
    intro toks h
    rw [isOther_tokenize c rest ho] at h
    cases h

theorem endsEOF_split (toks : List Token) (h : endsEOF toks = true) :
    ∃ init last, toks = init ++ [last] ∧ last.kind = .TK_EOF ∧
      ∀ t ∈ init, t.kind ≠ .TK_EOF := by
  induction toks with
  | nil => simp [endsEOF] at h
  | cons t ts ih =>
    cases ts with
    | nil =>
      refine ⟨[], t, rfl, ?_, by simp⟩
      simpa [endsEOF] using h
    | cons u ts =>
      simp only [endsEOF, Bool.and_eq_true, bne_iff_ne, ne_eq] at h
      obtain ⟨init, last, hl, hk, hi⟩ := ih h.2
      refine ⟨t :: init, last, by rw [hl]; rfl, hk, ?_⟩
      intro x hx
      rcases List.mem_cons.mp hx with rfl | hx
      · exact h.1
      · exact hi x hx

theorem not_isOther_of_isspace {c : Char} (h : isspace c = true) : isOther c = false := by
  simp [isOther, h]

theorem not_isOther_of_isdigit {c : Char} (h : isdigit c = true) : isOther c = false := by
  simp [isOther, h]

theorem not_isOther_of_op {c : Char} (h : c = '+' ∨ c = '-') : isOther c = false := by
  rcases h with rfl | rfl <;> decide

theorem mem_of_mem_dropWhile (f : Char → Bool) (l : List Char) (x : Char)
    (h : x ∈ l.dropWhile f) : x ∈ l :=
  (List.dropWhile_suffix f).subset h

theorem mem_digits_or_mem_dropWhile (l : List Char) (x : Char) (h : x ∈ l) :
    isdigit x = true ∨ x ∈ l.dropWhile isdigit := by
  rw [← List.takeWhile_append_dropWhile isdigit l] at h
  rcases List.mem_append.mp h with h | h
  · exact Or.inl (List.mem_takeWhile_imp h)
  · exact Or.inr h

/-- The tokenizer returns a token list when no character is unknown to it and
stops through `error()` otherwise; it never runs out of steps. -/
theorem tokenize_total (p : List Char) :
    ((∃ toks, tokenize p = .ok toks) ∧ ∀ c ∈ p, isOther c = false) ∨
    (tokenize p = .error (.error "トークナイズできません") ∧ ∃ c ∈ p, isOther c = true) := by
  induction p using tokenize_induction with
  | nil => exact Or.inl ⟨⟨_, tokenize_nil⟩, by simp⟩
  | space c rest hs ih =>
    rw [tokenize_space c rest hs]
    rcases ih with ⟨hok, hall⟩ | ⟨herr, x, hx, hbad⟩
    · refine Or.inl ⟨hok, ?_⟩
      intro x hx
      rcases List.mem_cons.mp hx with rfl | hx
      · exact not_isOther_of_isspace hs
      · exact hall x hx
    · exact Or.inr ⟨herr, x, List.mem_cons_of_mem _ hx, hbad⟩
  | op c rest hc ih =>
    rw [tokenize_op c rest hc]
    rcases ih with ⟨⟨toks, hok⟩, hall⟩ | ⟨herr, x, hx, hbad⟩
    · refine Or.inl ⟨⟨_, by rw [hok]; rfl⟩, ?_⟩
      intro x hx
      rcases List.mem_cons.mp hx with rfl | hx
      · exact not_isOther_of_op hc
      · exact hall x hx
    · exact Or.inr ⟨by rw [herr]; rfl, x, List.mem_cons_of_mem _ hx, hbad⟩
  | digit c rest hd ih =>
    rw [tokenize_digit c rest hd]
    rcases ih with ⟨⟨toks, hok⟩, hall⟩ | ⟨herr, x, hx, hbad⟩
    · refine Or.inl ⟨⟨_, by rw [hok]; rfl⟩, ?_⟩
      intro x hx
      rcases mem_digits_or_mem_dropWhile _ x hx with hx | hx
      · exact not_isOther_of_isdigit hx
      · exact hall x hx
    · exact Or.inr ⟨by rw [herr]; rfl, x, mem_of_mem_dropWhile _ _ x hx, hbad⟩
  | other c rest ho =>
    exact Or.inr ⟨isOther_tokenize c rest ho, c, List.mem_cons_self _ _, ho⟩

theorem isOther_iff (c : Char) :
    isOther c = true ↔ isspace c = false ∧ isdigit c = false ∧ c ≠ '+' ∧ c ≠ '-' := by
  simp only [isOther, Bool.and_eq_true, Bool.not_eq_true', bne_iff_ne, ne_eq]
  tauto

/-- Each token `tokenize` returns is an operator token at `+` or `-`, a number
token at a digit holding the converted value of the run that starts there, or
the end token at the terminator. -/
theorem tokenize_tokens (p : List Char) :
    ∀ toks, tokenize p = .ok toks → ∀ t ∈ toks,
      (t.kind = .TK_RESERVED ∧ t.val = 0 ∧ ∃ c r, t.str = c :: r ∧ (c = '+' ∨ c = '-')) ∨
      (t.kind = .TK_NUM ∧ t.val = numVal t.str ∧ ∃ c r, t.str = c :: r ∧ isdigit c = true) ∨
      t = ⟨.TK_EOF, 0, []⟩ := by
  induction p using tokenize_induction with
  | nil =>
    intro toks h t ht
    rw [tokenize_nil] at h
    cases h
    simp only [List.mem_singleton] at ht
    exact Or.inr (Or.inr ht)
  | space c rest hs ih =>
    intro toks h
    rw [tokenize_space c rest hs] at h
    exact ih toks h
  | op c rest hc ih =>
    intro toks h t ht
    rw [tokenize_op c rest hc] at h
    obtain ⟨ts, hts, rfl⟩ := except_map_eq_ok _ _ _ h
    rcases List.mem_cons.mp ht with rfl | ht
    · exact Or.inl ⟨rfl, rfl, c, rest, rfl, hc⟩
    · exact ih ts hts t ht
  | digit c rest hd ih =>
    intro toks h t ht
    rw [tokenize_digit c rest hd] at h
    obtain ⟨ts, hts, rfl⟩ := except_map_eq_ok _ _ _ h
    rcases List.mem_cons.mp ht with rfl | ht
    · exact Or.inr (Or.inl ⟨rfl, rfl, c, rest, rfl, hd⟩)
    · exact ih ts hts t ht
  | other c rest ho =>
    intro toks h
    rw [isOther_tokenize c rest ho] at h
    cases h

theorem toInt_nonneg_iff (x : Int) : 0 ≤ toInt x ↔ x % 2 ^ 32 < 2 ^ 31 := by
  unfold toInt
  norm_num
  omega

theorem toInt_of_small (x : Int) (h0 : 0 ≤ x) (h1 : x ≤ 2 ^ 31 - 1) : toInt x = x := by
  unfold toInt
  norm_num at h1 ⊢
  omega

theorem toInt_range (x : Int) : -(2 ^ 31) ≤ toInt x ∧ toInt x ≤ 2 ^ 31 - 1 := by
  unfold toInt
  norm_num
  omega

/-! ## Cutting the input at a token boundary -/

theorem betweenDigits_tail (c : Char) (rest suf : List Char)
    (h : betweenDigits (c :: rest) suf = false) : betweenDigits rest suf = false := by
  cases rest with
  | nil => simp [betweenDigits]
  | cons d rest => simpa [betweenDigits, List.getLast?_cons_cons] using h

/-- A run of digits that starts in `pre` ends in `pre`, or at its end, when the
cut after `pre` is not between two digits. -/
theorem digit_run_append (pre suf : List Char) (hne : pre ≠ [])
    (h : betweenDigits pre suf = false) :
    (pre ++ suf).takeWhile isdigit = pre.takeWhile isdigit ∧
    (pre ++ suf).dropWhile isdigit = pre.dropWhile isdigit ++ suf ∧
    betweenDigits (pre.dropWhile isdigit) suf = false := by
  induction pre with
  | nil => exact absurd rfl hne
  | cons c rest ih =>
    by_cases hc : isdigit c = true
    · cases rest with
      | nil =>
        have hs : suf.takeWhile isdigit = [] ∧ suf.dropWhile isdigit = suf := by
          cases suf with
          | nil => simp
          | cons d suf =>
            have hd : isdigit d = false := by
              simpa [betweenDigits, hc] using h
            simp [List.takeWhile, List.dropWhile, hd]
        simp [List.takeWhile, List.dropWhile, hc, hs.1, hs.2, betweenDigits]
      | cons d rest =>
        have h2 := betweenDigits_tail c (d :: rest) suf h
        obtain ⟨i1, i2, i3⟩ := ih (by simp) h2
        refine ⟨?_, ?_, ?_⟩
        · simp only [List.cons_append, List.takeWhile, hc] at i1 ⊢
          rw [i1]
        · simp only [List.cons_append, List.dropWhile, hc] at i2 ⊢
          rw [i2]
        · simp only [List.dropWhile, hc] at i3 ⊢
          exact i3
    · have hc2 : isdigit c = false := by simpa using hc
      simp [List.takeWhile, List.dropWhile, hc2, h]

theorem tokenize_ne_nil (p : List Char) (toks : List Token) (h : tokenize p = .ok toks) :
    toks ≠ [] := by
  intro hnil
  have := tokenize_endsEOF p toks h
  rw [hnil] at this
  simp [endsEOF] at this

/-- Tokens of `pre ++ suf` when the cut is not between two digits: the tokens
of `pre` without its end token, then the tokens of `suf`. -/
theorem tokenize_append (pre suf : List Char) (tb : List Token)
    (hsuf : tokenize suf = .ok tb) :
    betweenDigits pre suf = false → ∀ ta, tokenize pre = .ok ta →
      tokenize (pre ++ suf) = .ok (ta.dropLast.map (Token.followedBy suf) ++ tb) := by
  induction pre using tokenize_induction with
  | nil =>
    intro _ ta h
    rw [tokenize_nil] at h
    cases h
    simpa using hsuf
  | space c rest hs ih =>
    intro hb ta h
    rw [tokenize_space c rest hs] at h
    rw [List.cons_append, tokenize_space c _ hs]
    exact ih (betweenDigits_tail c rest suf hb) ta h
  | op c rest hc ih =>
    intro hb ta h
    rw [tokenize_op c rest hc] at h
    obtain ⟨ts, hts, rfl⟩ := except_map_eq_ok _ _ _ h
    rw [List.cons_append, tokenize_op c _ hc,
      ih (betweenDigits_tail c rest suf hb) ts hts,
      List.dropLast_cons_of_ne_nil (tokenize_ne_nil rest ts hts)]
    rfl
  | digit c rest hd ih =>
    intro hb ta h
    rw [tokenize_digit c rest hd] at h
    obtain ⟨ts, hts, rfl⟩ := except_map_eq_ok _ _ _ h
    obtain ⟨h1, h2, h3⟩ := digit_run_append (c :: rest) suf (by simp) hb
    have hnum : numVal (c :: (rest ++ suf)) = numVal (c :: rest) := by
      unfold numVal
      rw [← List.cons_append, h1]
    rw [List.cons_append, tokenize_digit c _ hd, ← List.cons_append, h2, ih h3 ts hts,
      List.dropLast_cons_of_ne_nil (tokenize_ne_nil _ ts hts), List.cons_append, hnum]
    rfl
  | other c rest ho =>
    intro _ ta h
    rw [isOther_tokenize c rest ho] at h
    cases h

theorem tokenize_spaces (ws rest : List Char) (h : ∀ c ∈ ws, isspace c = true) :
    tokenize (ws ++ rest) = tokenize rest := by
  induction ws with
  | nil => rfl
  | cons c ws ih =>
    rw [List.cons_append, tokenize_space c _ (h c (List.mem_cons_self _ _))]
    exact ih (fun x hx => h x (List.mem_cons_of_mem _ hx))

/-- A run of digits followed by something that is not a digit is one number
token, and the loop goes on right after the run. -/
theorem tokenize_digits (ds rest : List Char) (hne : ds ≠ [])
    (hds : ∀ c ∈ ds, isdigit c = true) (hrest : rest.head?.any isdigit = false) :
    tokenize (ds ++ rest) =
      (tokenize rest).map
        (⟨.TK_NUM, toInt (min (decValue ds : Int) LONG_MAX), ds ++ rest⟩ :: ·) := by
  cases ds with
  | nil => exact absurd rfl hne
  | cons c ds =>
    have hc := hds c (List.mem_cons_self _ _)
    have hall : ∀ x ∈ c :: ds, isdigit x = true := hds
    have ht : ((c :: ds) ++ rest).takeWhile isdigit = c :: ds := by
      rw [List.takeWhile_append_of_pos hall]
      cases rest with
      | nil => simp
      | cons d rest =>
        have hd : isdigit d = false := by simpa using hrest
        simp [List.takeWhile, hd]
    have hdr : ((c :: ds) ++ rest).dropWhile isdigit = rest := by
      rw [List.dropWhile_append_of_pos hall]
      cases rest with
      | nil => simp
      | cons d rest =>
        have hd : isdigit d = false := by simpa using hrest
        simp [List.dropWhile, hd]
    rw [List.cons_append, tokenize_digit c _ hc, ← List.cons_append, hdr]
    unfold numVal
    rw [ht]

theorem tokenize_ok_of_chars (p : List Char) (h : ∀ c ∈ p, isOther c = false) :
    ∃ toks, tokenize p = .ok toks := by
  rcases tokenize_total p with ⟨hok, _⟩ | ⟨_, c, hc, hbad⟩
  · exact hok
  · rw [h c hc] at hbad
    cases hbad

theorem chars_of_tokenize_ok (p : List Char) (toks : List Token)
    (h : tokenize p = .ok toks) : ∀ c ∈ p, isOther c = false := by
  rcases tokenize_total p with ⟨_, hall⟩ | ⟨herr, _⟩
  · exact hall
  · rw [h] at herr
    cases herr

/-- The text of every token is the input from the place where the token starts. -/
theorem tokenize_str_suffix (p : List Char) :
    ∀ toks, tokenize p = .ok toks → ∀ t ∈ toks, t.str <:+ p := by
  induction p using tokenize_induction with
  | nil =>
    intro toks h t ht
    rw [tokenize_nil] at h
    cases h
    simp only [List.mem_singleton] at ht
    rw [ht]
  | space c rest hs ih =>
    intro toks h t ht
    rw [tokenize_space c rest hs] at h
    exact (ih toks h t ht).trans (List.suffix_cons c rest)
  | op c rest hc ih =>
    intro toks h t ht
    rw [tokenize_op c rest hc] at h
    obtain ⟨ts, hts, rfl⟩ := except_map_eq_ok _ _ _ h
    rcases List.mem_cons.mp ht with rfl | ht
    · exact List.suffix_refl _
    · exact (ih ts hts t ht).trans (List.suffix_cons c rest)
  | digit c rest hd ih =>
    intro toks h t ht
    rw [tokenize_digit c rest hd] at h
    obtain ⟨ts, hts, rfl⟩ := except_map_eq_ok _ _ _ h
    rcases List.mem_cons.mp ht with rfl | ht
    · exact List.suffix_refl _
    · exact (ih ts hts t ht).trans (List.dropWhile_suffix isdigit)
  | other c rest ho =>
    intro toks h
    rw [isOther_tokenize c rest ho] at h
    cases h

/-- Before the end token every token has a text that is not empty. -/
theorem tokenize_body_str (p : List Char) (toks : List Token) (h : tokenize p = .ok toks) :
    ∀ t ∈ toks.dropLast, t.kind ≠ .TK_EOF ∧ t.str ≠ [] := by
  obtain ⟨init, last, hl, _, hi⟩ := endsEOF_split toks (tokenize_endsEOF p toks h)
  intro t ht
  rw [hl, List.dropLast_concat] at ht
  have hk := hi t ht
  have hmem : t ∈ toks := by
    rw [hl]
    exact List.mem_append_left _ ht
  refine ⟨hk, ?_⟩
  rcases tokenize_tokens p toks h t hmem with ⟨_, _, c, r, hs, _⟩ | ⟨_, _, c, r, hs, _⟩ | rfl
  · rw [hs]; simp
  · rw [hs]; simp
  · exact absurd rfl hk

/-! ## The driver on a token list -/

theorem main_two (a0 p : List Char) :
    main [a0, p] =
      match tokenize p with
      | .error f => abort [] f
      | .ok token => compile token := rfl

theorem compile_accepts (n : Token) (rest : List Token)
    (h : isProgram (n :: rest) = true) :
    compile (n :: rest) =
      ⟨preamble ++ ["\tmov rax, " ++ fmt_d n.val ++ "\n"] ++ instrLines rest ++ ["\tret\n"],
        [], .ok 0⟩ := by
  simp only [isProgram, Bool.and_eq_true, beq_iff_eq] at h
  simp only [compile, expect_number_hit _ _ h.1]
  exact mainLoop_accepts _ _ _ (by simp only [List.length_cons]; omega) h.2

theorem compile_rejects (toks : List Token) (he : endsEOF toks = true)
    (h : isProgram toks = false) :
    ∃ msg lines, compile toks = abort (preamble ++ lines) (.error msg) ∧
      ∀ l ∈ lines, l ≠ "\tret\n" := by
  cases toks with
  | nil => simp [endsEOF] at he
  | cons n rest =>
    by_cases hn : n.kind = .TK_NUM
    · have hr : isOpNumsEnd rest = false := by simpa [isProgram, hn] using h
      obtain ⟨msg, lines, hrun, hl⟩ :=
        mainLoop_rejects (n :: rest).length rest
          (preamble ++ ["\tmov rax, " ++ fmt_d n.val ++ "\n"])
          (by simp only [List.length_cons]; omega) (endsEOF_tail_of_num n rest hn he) hr
      refine ⟨msg, ("\tmov rax, " ++ fmt_d n.val ++ "\n") :: lines, ?_, ?_⟩
      · simp only [compile, expect_number_hit _ _ hn, hrun, List.append_assoc,
          List.singleton_append]
      · intro l hmem
        rcases List.mem_cons.mp hmem with rfl | hmem
        · exact mov_line_ne_ret _
        · exact hl l hmem
    · refine ⟨"数値ではありません", [], ?_, by simp⟩
      simp only [compile, expect_number_miss _ _ hn, List.append_nil]

/-! ## The parser sees only the view of a token -/

theorem view_followedBy (suf : List Char) (t : Token) (h : t.str ≠ []) :
    (t.followedBy suf).view = t.view := by
  cases hs : t.str with
  | nil => exact absurd hs h
  | cons c r => simp [Token.followedBy, Token.view, str0, hs]

theorem number_step_congr (fuel : Nat) (ts ts' : List Token) (out : List String)
    (mnemonic : String)
    (ih : ∀ toks toks' out, toks.map Token.view = toks'.map Token.view →
      mainLoop fuel toks out = mainLoop fuel toks' out)
    (h : ts.map Token.view = ts'.map Token.view) :
    (match expect_number ts with
      | .error f => abort out f
      | .ok (v, token) => mainLoop fuel token (out ++ [mnemonic ++ fmt_d v ++ "\n"])) =
    (match expect_number ts' with
      | .error f => abort out f
      | .ok (v, token) => mainLoop fuel token (out ++ [mnemonic ++ fmt_d v ++ "\n"])) := by
  cases ts with
  | nil =>
    cases ts' with
    | nil => rfl
    | cons n' ns' => simp at h
  | cons n ns =>
    cases ts' with
    | nil => simp at h
    | cons n' ns' =>
      simp only [List.map_cons, List.cons.injEq, Token.view, Prod.mk.injEq] at h
      obtain ⟨⟨hk, _, hv⟩, hns⟩ := h
      by_cases hn : n.kind = .TK_NUM
      · simp only [expect_number_hit _ _ hn, expect_number_hit _ _ (hk ▸ hn), hv]
        exact ih _ _ _ hns
      · simp only [expect_number_miss _ _ hn, expect_number_miss _ _ (hk ▸ hn)]

/-- Two token lists with the same kinds, first characters and values drive the
loop of `main` in the same way. -/
theorem mainLoop_congr (fuel : Nat) (toks toks' : List Token) (out : List String)
    (h : toks.map Token.view = toks'.map Token.view) :
    mainLoop fuel toks out = mainLoop fuel toks' out := by
  induction fuel generalizing toks toks' out with
  | zero => rfl
  | succ fuel ih =>
    cases toks with
    | nil =>
      cases toks' with
      | nil => rfl
      | cons t' ts' => simp at h
    | cons t ts =>
      cases toks' with
      | nil => simp at h
      | cons t' ts' =>
        simp only [List.map_cons, List.cons.injEq, Token.view, Prod.mk.injEq] at h
        obtain ⟨⟨hk, hc, _⟩, hts⟩ := h
        rw [mainLoop_succ, mainLoop_succ, at_eof_cons, at_eof_cons, hk]
        cases heof : (t'.kind == TokenKind.TK_EOF) with
        | true => rfl
        | false =>
          by_cases hplus : t.kind = .TK_RESERVED ∧ str0 t.str = '+'
          · rw [consume_hit _ _ _ hplus.1 hplus.2,
              consume_hit _ _ _ (hk ▸ hplus.1) (hc ▸ hplus.2)]
            exact number_step_congr fuel ts ts' out _ ih hts
          · have hmiss : t.kind ≠ .TK_RESERVED ∨ str0 t.str ≠ '+' := by
              by_cases hr : t.kind = .TK_RESERVED
              · exact Or.inr (fun hx => hplus ⟨hr, hx⟩)
              · exact Or.inl hr
            rw [consume_miss _ _ _ hmiss, consume_miss _ _ _ (hk ▸ hc ▸ hmiss)]
            by_cases hminus : t.kind = .TK_RESERVED ∧ str0 t.str = '-'
            · simp only [expect_hit _ _ _ hminus.1 hminus.2,
                expect_hit _ _ _ (hk ▸ hminus.1) (hc ▸ hminus.2)]
              exact number_step_congr fuel ts ts' out _ ih hts
            · have hmiss2 : t.kind ≠ .TK_RESERVED ∨ str0 t.str ≠ '-' := by
                by_cases hr : t.kind = .TK_RESERVED
                · exact Or.inr (fun hx => hminus ⟨hr, hx⟩)
                · exact Or.inl hr
              simp only [expect_miss _ _ _ hmiss2, expect_miss _ _ _ (hk ▸ hc ▸ hmiss2)]

theorem compile_congr (toks toks' : List Token)
    (h : toks.map Token.view = toks'.map Token.view) : compile toks = compile toks' := by
  have hlen : toks.length = toks'.length := by
    have := congrArg List.length h
    simpa using this
  cases toks with
  | nil =>
    cases toks' with
    | nil => rfl
    | cons t' ts' => simp at h
  | cons t ts =>
    cases toks' with
    | nil => simp at h
    | cons t' ts' =>
      simp only [List.map_cons, List.cons.injEq, Token.view, Prod.mk.injEq] at h
      obtain ⟨⟨hk, _, hv⟩, hts⟩ := h
      by_cases hn : t.kind = .TK_NUM
      · simp only [compile, expect_number_hit _ _ hn, expect_number_hit _ _ (hk ▸ hn), hv, hlen]
        exact mainLoop_congr _ _ _ _ hts
      · simp only [compile, expect_number_miss _ _ hn, expect_number_miss _ _ (hk ▸ hn)]

theorem tokenize_error_of_other (p : List Char) (h : ∃ c ∈ p, isOther c = true) :
    tokenize p = .error (.error "トークナイズできません") := by
  obtain ⟨c, hc, hbad⟩ := h
  rcases tokenize_total p with ⟨_, hall⟩ | ⟨herr, _⟩
  · rw [hall c hc] at hbad
    cases hbad
  · exact herr

theorem isspace_not_isdigit {c : Char} (h : isspace c = true) : isdigit c = false := by
  cases hd : isdigit c with
  | false => rfl
  | true =>
    rw [isdigit_not_isspace hd] at h
    cases h

/-- White space put at a place that is not between two digits changes the text
of the tokens before it and nothing else. -/
theorem tokenize_insert_spaces (a ws b : List Char) (hws : ∀ c ∈ ws, isspace c = true)
    (hcut : betweenDigits a b = false) :
    (tokenize (a ++ (ws ++ b))).map (List.map Token.view) =
      (tokenize (a ++ b)).map (List.map Token.view) := by
  rcases tokenize_total a with ⟨⟨ta, hta⟩, _⟩ | ⟨_, c, hc, hbad⟩
  · rcases tokenize_total b with ⟨⟨tb, htb⟩, _⟩ | ⟨_, c, hc, hbad⟩
    · have hwb : tokenize (ws ++ b) = .ok tb := by rw [tokenize_spaces ws b hws, htb]
      have hcut2 : betweenDigits a (ws ++ b) = false := by
        cases ws with
        | nil => exact hcut
        | cons c ws =>
          have hd := isspace_not_isdigit (hws c (List.mem_cons_self _ _))
          simp [betweenDigits, hd]
      rw [tokenize_append a (ws ++ b) tb hwb hcut2 ta hta,
        tokenize_append a b tb htb hcut ta hta]
      simp only [Except.map, List.map_append, List.map_map]
      congr 2
      apply List.map_congr_left
      intro t ht
      have hs := (tokenize_body_str a ta hta t ht).2
      simp only [Function.comp, view_followedBy _ t hs]
    · rw [tokenize_error_of_other (a ++ (ws ++ b)) ⟨c, by simp [hc], hbad⟩,
        tokenize_error_of_other (a ++ b) ⟨c, by simp [hc], hbad⟩]
  · rw [tokenize_error_of_other (a ++ (ws ++ b)) ⟨c, by simp [hc], hbad⟩,
      tokenize_error_of_other (a ++ b) ⟨c, by simp [hc], hbad⟩]

theorem main_congr (a0 p q : List Char)
    (h : (tokenize p).map (List.map Token.view) = (tokenize q).map (List.map Token.view)) :
    main [a0, p] = main [a0, q] := by
  rw [main_two, main_two]
  cases hp : tokenize p with
  | error f =>
    cases hq : tokenize q with
    | error g =>
      rw [hp, hq] at h
      simp only [Except.map, Except.error.injEq] at h
      rw [h]
    | ok tq =>
      rw [hp, hq] at h
      simp [Except.map] at h
  | ok tp =>
    cases hq : tokenize q with
    | error g =>
      rw [hp, hq] at h
      simp [Except.map] at h
    | ok tq =>
      rw [hp, hq] at h
      simp only [Except.map, Except.ok.injEq] at h
      exact compile_congr tp tq h

/-! ## `%d` and reading it back -/

theorem digitChar_spec : ∀ k, k < 10 →
    isdigit (Nat.digitChar k) = true ∧ (Nat.digitChar k).toNat - 48 = k ∧
      Nat.digitChar k ≠ '-' := by
  decide

theorem decValue_concat (xs : List Char) (d : Char) :
    decValue (xs ++ [d]) = 10 * decValue xs + (d.toNat - 48) := by
  simp [decValue, List.foldl_append]

theorem toDigitsCore_acc (fuel n : Nat) (ds : List Char) :
    Nat.toDigitsCore 10 fuel n ds = Nat.toDigitsCore 10 fuel n [] ++ ds := by
  induction fuel generalizing n ds with
  | zero => simp [Nat.toDigitsCore]
  | succ fuel ih =>
    simp only [Nat.toDigitsCore]
    split
    · simp
    · rw [ih (n / 10) (_ :: ds), ih (n / 10) [_]]
      simp

theorem toDigitsCore_spec (fuel n : Nat) (h : n < fuel) :
    Nat.toDigitsCore 10 fuel n [] ≠ [] ∧
      (∀ c ∈ Nat.toDigitsCore 10 fuel n [], isdigit c = true ∧ c ≠ '-') ∧
      decValue (Nat.toDigitsCore 10 fuel n []) = n := by
  induction fuel generalizing n with
  | zero => omega
  | succ fuel ih =>
    have hd := digitChar_spec (n % 10) (Nat.mod_lt _ (by decide))
    simp only [Nat.toDigitsCore]
    split
    · rename_i hz
      have hn : n % 10 = n := by omega
      refine ⟨by simp, ?_, ?_⟩
      · intro c hc
        simp only [List.mem_singleton] at hc
        rw [hc]
        exact ⟨hd.1, hd.2.2⟩
      · have := decValue_concat [] (Nat.digitChar (n % 10))
        simp only [List.nil_append] at this
        rw [this, hd.2.1]
        simp [decValue, hn]
    · rename_i hz
      obtain ⟨_, i2, i3⟩ := ih (n / 10) (by omega)
      rw [toDigitsCore_acc]
      refine ⟨by simp, ?_, ?_⟩
      · intro c hc
        rcases List.mem_append.mp hc with hc | hc
        · exact i2 c hc
        · simp only [List.mem_singleton] at hc
          rw [hc]
          exact ⟨hd.1, hd.2.2⟩
      · rw [decValue_concat, i3, hd.2.1]
        omega

theorem repr_data_spec (n : Nat) :
    (Nat.repr n).data ≠ [] ∧ (∀ c ∈ (Nat.repr n).data, isdigit c = true ∧ c ≠ '-') ∧
      decValue (Nat.repr n).data = n :=
  toDigitsCore_spec (n + 1) n (Nat.lt_succ_self n)

theorem parseDecimal_digits (ds : List Char) (hne : ds ≠ [])
    (hds : ∀ c ∈ ds, isdigit c = true ∧ c ≠ '-') :
    parseDecimal ds = some (decValue ds : Int) := by
  cases ds with
  | nil => exact absurd rfl hne
  | cons c r =>
    have hc := (hds c (List.mem_cons_self _ _)).2
    have hall : (c :: r).all isdigit = true := by
      rw [List.all_eq_true]
      exact fun x hx => (hds x hx).1
    simp only [parseDecimal, if_neg hc, hall, if_true]

theorem parseDecimal_minus_digits (ds : List Char) (hne : ds ≠ [])
    (hds : ∀ c ∈ ds, isdigit c = true ∧ c ≠ '-') :
    parseDecimal ('-' :: ds) = some (-(decValue ds : Int)) := by
  have hall : ds.all isdigit = true := by
    rw [List.all_eq_true]
    exact fun x hx => (hds x hx).1
  have hemp : ds.isEmpty = false := by
    cases ds with
    | nil => exact absurd rfl hne
    | cons c r => rfl
  simp [parseDecimal, hall, hemp]

/-- Reading back what `%d` writes gives the integer written. -/
theorem parseDecimal_fmt_d (v : Int) : parseDecimal (fmt_d v).data = some v := by
  obtain ⟨h1, h2, h3⟩ := repr_data_spec v.natAbs
  unfold fmt_d
  split
  · rename_i hneg
    have hd : ("-" ++ Nat.repr v.natAbs).data = '-' :: (Nat.repr v.natAbs).data := by
      rw [String.data_append]
      rfl
    rw [hd, parseDecimal_minus_digits _ h1 h2, h3]
    congr 1
    omega
  · rename_i hpos
    rw [parseDecimal_digits _ h1 h2, h3]
    congr 1
    omega

theorem operand_line (mnemonic : String) (v : Int) :
    operand mnemonic (mnemonic ++ fmt_d v ++ "\n") = some v := by
  have hd : (mnemonic ++ fmt_d v ++ "\n").data =
      mnemonic.data ++ ((fmt_d v).data ++ ['\n']) := by
    rw [String.data_append, String.data_append, List.append_assoc]
  have hp : mnemonic.data.isPrefixOf (mnemonic.data ++ ((fmt_d v).data ++ ['\n'])) = true :=
    List.isPrefixOf_iff_prefix.mpr (List.prefix_append _ _)
  have hl : (mnemonic.data ++ ((fmt_d v).data ++ ['\n'])).getLast? = some '\n' := by
    rw [← List.append_assoc]
    exact List.getLast?_concat _
  unfold operand
  rw [hd, hp, hl, List.drop_left, List.dropLast_concat]
  simp only [beq_self_eq_true, Bool.and_self, if_true]
  exact parseDecimal_fmt_d v

theorem operand_other (m m2 : String) (x : String)
    (h : ∀ r, m.data.isPrefixOf (m2.data ++ r) = false) :
    operand m (m2 ++ x ++ "\n") = none := by
  unfold operand
  rw [String.data_append, String.data_append, List.append_assoc, h]
  rfl

theorem mov_not_add (r : List Char) :
    "\tmov rax, ".data.isPrefixOf ("\tadd rax, ".data ++ r) = false := rfl

theorem mov_not_sub (r : List Char) :
    "\tmov rax, ".data.isPrefixOf ("\tsub rax, ".data ++ r) = false := rfl

theorem add_not_sub (r : List Char) :
    "\tadd rax, ".data.isPrefixOf ("\tsub rax, ".data ++ r) = false := rfl

theorem execLine_mov (rax v : Int) :
    execLine rax ("\tmov rax, " ++ fmt_d v ++ "\n") = some v := by
  simp only [execLine, operand_line]

theorem execLine_add (rax v : Int) :
    execLine rax ("\tadd rax, " ++ fmt_d v ++ "\n") = some (rax + v) := by
  simp only [execLine, operand_other _ _ _ mov_not_add, operand_line]

theorem execLine_sub (rax v : Int) :
    execLine rax ("\tsub rax, " ++ fmt_d v ++ "\n") = some (rax - v) := by
  simp only [execLine, operand_other _ _ _ mov_not_sub, operand_other _ _ _ add_not_sub,
    operand_line]

/-- An instruction line is none of the preamble lines: it starts with a tab. -/
theorem tab_line_not_preamble (m x : String) (h : m.data.head? = some '\t') :
    m ++ x ++ "\n" ∉ preamble := by
  intro hmem
  have hh : (m ++ x ++ "\n").data.head? = some '\t' := by
    rw [String.data_append, String.data_append, List.append_assoc, List.head?_append, h]
    rfl
  simp only [preamble, List.mem_cons, List.mem_singleton, List.not_mem_nil, or_false] at hmem
  rcases hmem with hmem | hmem | hmem
  · rw [hmem] at hh; revert hh; decide
  · rw [hmem] at hh; revert hh; decide
  · rw [hmem] at hh; revert hh; decide

theorem runAsm_ret (rest : List String) (rax : Int) :
    runAsm ("\tret\n" :: rest) rax = some rax := by
  simp [runAsm]

theorem runAsm_mov (rest : List String) (rax v : Int) :
    runAsm (("\tmov rax, " ++ fmt_d v ++ "\n") :: rest) rax = runAsm rest v := by
  simp only [runAsm, if_neg (mov_line_ne_ret _),
    if_neg (tab_line_not_preamble "\tmov rax, " (fmt_d v) rfl),
    execLine_mov]

theorem runAsm_add (rest : List String) (rax v : Int) :
    runAsm (("\tadd rax, " ++ fmt_d v ++ "\n") :: rest) rax = runAsm rest (rax + v) := by
  simp only [runAsm, if_neg (add_line_ne_ret _),
    if_neg (tab_line_not_preamble "\tadd rax, " (fmt_d v) rfl),
    execLine_add]

theorem runAsm_sub (rest : List String) (rax v : Int) :
    runAsm (("\tsub rax, " ++ fmt_d v ++ "\n") :: rest) rax = runAsm rest (rax - v) := by
  simp only [runAsm, if_neg (sub_line_ne_ret _),
    if_neg (tab_line_not_preamble "\tsub rax, " (fmt_d v) rfl),
    execLine_sub]

theorem runAsm_preamble (rest : List String) (rax : Int) :
    runAsm (preamble ++ rest) rax = runAsm rest rax := by
  have h1 : ¬ (".intel_syntax noprefix\n" = "\tret\n") := by decide
  have h2 : ¬ (".globl main\n" = "\tret\n") := by decide
  have h3 : ¬ ("main:\n" = "\tret\n") := by decide
  have m1 : ".intel_syntax noprefix\n" ∈ preamble := by decide
  have m2 : ".globl main\n" ∈ preamble := by decide
  have m3 : "main:\n" ∈ preamble := by decide
  show runAsm (".intel_syntax noprefix\n" :: ".globl main\n" :: "main:\n" :: rest) rax = _
  simp only [runAsm, if_neg h1, if_neg h2, if_neg h3, if_pos m1, if_pos m2, if_pos m3]

/-! ## Well-formed source expressions -/

theorem isLiteral_spec (ds : List Char) (h : isLiteral ds = true) :
    ds ≠ [] ∧ (∀ c ∈ ds, isdigit c = true) ∧ decValue ds ≤ 2 ^ 31 - 1 := by
  simp only [isLiteral, Bool.and_eq_true, Bool.not_eq_true', List.all_eq_true,
    decide_eq_true_eq] at h
  refine ⟨?_, h.1.2, h.2⟩
  intro hnil
  rw [hnil] at h
  simp at h

theorem literal_val (ds : List Char) (h : decValue ds ≤ 2 ^ 31 - 1) :
    toInt (min (decValue ds : Int) LONG_MAX) = (decValue ds : Int) := by
  have hs : (decValue ds : Int) ≤ 2 ^ 31 - 1 := by
    norm_num at h ⊢
    omega
  have h1 : min (decValue ds : Int) LONG_MAX = (decValue ds : Int) := by
    apply min_eq_left
    unfold LONG_MAX
    norm_num at hs ⊢
    omega
  rw [h1, toInt_of_small _ (by positivity) hs]

theorem OpLit.wf_spec (it : OpLit) (h : it.wf = true) :
    (∀ c ∈ it.ws1, isspace c = true) ∧ (it.op = '+' ∨ it.op = '-') ∧
      (∀ c ∈ it.ws2, isspace c = true) ∧ isLiteral it.lit = true := by
  simp only [OpLit.wf, Bool.and_eq_true, List.all_eq_true, Bool.or_eq_true, beq_iff_eq] at h
  exact ⟨h.1.1.1, h.1.1.2, h.1.2, h.2⟩

theorem spaces_head (ws rest : List Char) (h : ∀ c ∈ ws, isspace c = true)
    (hrest : rest.head?.any isdigit = false) : (ws ++ rest).head?.any isdigit = false := by
  cases ws with
  | nil => exact hrest
  | cons c ws =>
    have hd := isspace_not_isdigit (h c (List.mem_cons_self _ _))
    simp [hd]

/-- What follows a literal of a well-formed expression does not start with a
digit. -/
theorem tailText_head (items : List OpLit) (trail : List Char)
    (hitems : ∀ it ∈ items, it.wf = true) (htrail : ∀ c ∈ trail, isspace c = true) :
    (tailText items trail).head?.any isdigit = false := by
  cases items with
  | nil =>
    have := spaces_head trail [] htrail rfl
    simpa [tailText] using this
  | cons it items =>
    obtain ⟨h1, h2, _, _⟩ := it.wf_spec (hitems it (List.mem_cons_self _ _))
    apply spaces_head _ _ h1
    rcases h2 with h2 | h2 <;> rw [h2] <;> rfl

/-- The continuations of a well-formed expression are tokenized into pairs
operator, number, and the lines emitted for them compute the left-to-right
value. -/
theorem tail_run (items : List OpLit) (trail : List Char)
    (hitems : ∀ it ∈ items, it.wf = true) (htrail : ∀ c ∈ trail, isspace c = true) :
    ∃ toks, tokenize (tailText items trail) = .ok toks ∧ isOpNumsEnd toks = true ∧
      ∀ rax, runAsm (instrLines toks ++ ["\tret\n"]) rax = some (evalItems rax items) := by
  induction items with
  | nil =>
    refine ⟨[⟨.TK_EOF, 0, []⟩], ?_, rfl, ?_⟩
    · have := tokenize_spaces trail [] htrail
      rw [List.append_nil] at this
      rw [tailText, this, tokenize_nil]
    · intro rax
      exact runAsm_ret [] rax
  | cons it items ih =>
    obtain ⟨toks, htoks, hprog, hrun⟩ :=
      ih (fun x hx => hitems x (List.mem_cons_of_mem _ hx))
    obtain ⟨h1, h2, h3, h4⟩ := it.wf_spec (hitems it (List.mem_cons_self _ _))
    obtain ⟨l1, l2, l3⟩ := isLiteral_spec it.lit h4
    have hhead := tailText_head items trail
      (fun x hx => hitems x (List.mem_cons_of_mem _ hx)) htrail
    refine ⟨⟨.TK_RESERVED, 0, it.op :: (it.ws2 ++ (it.lit ++ tailText items trail))⟩ ::
      ⟨.TK_NUM, (decValue it.lit : Int), it.lit ++ tailText items trail⟩ :: toks, ?_, ?_, ?_⟩
    · rw [tailText, tokenize_spaces _ _ h1, tokenize_op _ _ h2, tokenize_spaces _ _ h3,
        tokenize_digits _ _ l1 l2 hhead, htoks, literal_val _ l3]
      rfl
    · simp only [isOpNumsEnd, str0, List.headD_cons, hprog, Bool.and_true, Bool.and_eq_true,
        beq_iff_eq, Bool.or_eq_true]
      exact ⟨⟨trivial, h2⟩, trivial⟩
    · intro rax
      have hev : evalItems rax (it :: items) =
          evalItems (if it.op = '+' then rax + (decValue it.lit : Int)
            else rax - (decValue it.lit : Int)) items := rfl
      rw [hev]
      by_cases hp : it.op = '+'
      · simp only [instrLines, str0, List.headD_cons, hp, if_true, List.cons_append]
        rw [runAsm_add, hrun]
      · simp only [instrLines, str0, List.headD_cons, hp, if_false, List.cons_append]
        rw [runAsm_sub, hrun]

/-! ## Runs that stop in the parser -/

theorem isOperator_spec (t : Token) :
    isOperator t = true ↔
      t.kind = .TK_RESERVED ∧ (str0 t.str = '+' ∨ str0 t.str = '-') := by
  simp [isOperator]

/-- One turn of the loop over an operator and a number. -/
theorem mainLoop_pair (fuel : Nat) (o n : Token) (rest : List Token) (out : List String)
    (ho : isOperator o = true) (hn : n.kind = .TK_NUM) :
    mainLoop (fuel + 1) (o :: n :: rest) out =
      mainLoop fuel rest (out ++ instrLines [o, n]) := by
  obtain ⟨hk, hc⟩ := (isOperator_spec o).mp ho
  have heof : (o.kind == TokenKind.TK_EOF) = false := by rw [hk]; rfl
  rw [mainLoop_succ, at_eof_cons, heof]
  by_cases hplus : str0 o.str = '+'
  · rw [consume_hit _ _ _ hk hplus]
    simp only [expect_number_hit _ _ hn, instrLines, hplus, if_true]
  · have hminus : str0 o.str = '-' := by
      rcases hc with hc | hc
      · exact absurd hc hplus
      · exact hc
    rw [consume_miss _ _ _ (Or.inr hplus)]
    simp only [expect_hit _ _ _ hk hminus, expect_number_hit _ _ hn, instrLines, hplus,
      if_false]

theorem instrLines_cons_cons (o n : Token) (rest : List Token) :
    instrLines (o :: n :: rest) = instrLines [o, n] ++ instrLines rest := by
  simp [instrLines]

theorem instrLines_append (ps l : List Token) (h : isOpNums ps = true) :
    instrLines (ps ++ l) = instrLines ps ++ instrLines l := by
  match ps, h with
  | [], _ => simp [instrLines]
  | o :: n :: ps, h =>
    simp only [isOpNums, Bool.and_eq_true] at h
    have ih := instrLines_append ps l h.2
    rw [List.cons_append, List.cons_append, instrLines_cons_cons, ih,
      instrLines_cons_cons o n ps, List.append_assoc]

/-- The loop runs through pairs operator, number, one turn for each. -/
theorem mainLoop_pairs (fuel : Nat) (ps rest : List Token) (out : List String)
    (h : isOpNums ps = true) :
    mainLoop (fuel + ps.length / 2) (ps ++ rest) out =
      mainLoop fuel rest (out ++ instrLines ps) := by
  match ps, h with
  | [], _ => simp [instrLines]
  | o :: n :: ps, h =>
    simp only [isOpNums, Bool.and_eq_true, beq_iff_eq] at h
    have hf : fuel + (o :: n :: ps).length / 2 = (fuel + ps.length / 2) + 1 := by
      simp only [List.length_cons]
      omega
    rw [hf, List.cons_append, List.cons_append, mainLoop_pair _ _ _ _ _ h.1.1 h.1.2,
      mainLoop_pairs fuel ps rest _ h.2, instrLines_cons_cons o n ps, List.append_assoc]

/-- After an operator, a token that is not a number stops the run in
`expect_number`. -/
theorem mainLoop_needs_number (fuel : Nat) (o t : Token) (rest : List Token)
    (out : List String) (ho : isOperator o = true) (ht : t.kind ≠ .TK_NUM) :
    mainLoop (fuel + 1) (o :: t :: rest) out = abort out (.error "数値ではありません") := by
  obtain ⟨hk, hc⟩ := (isOperator_spec o).mp ho
  have heof : (o.kind == TokenKind.TK_EOF) = false := by rw [hk]; rfl
  rw [mainLoop_succ, at_eof_cons, heof]
  by_cases hplus : str0 o.str = '+'
  · rw [consume_hit _ _ _ hk hplus]
    simp only [expect_number_miss _ _ ht]
  · have hminus : str0 o.str = '-' := by
      rcases hc with hc | hc
      · exact absurd hc hplus
      · exact hc
    rw [consume_miss _ _ _ (Or.inr hplus)]
    simp only [expect_hit _ _ _ hk hminus, expect_number_miss _ _ ht]

/-- At the head of the loop, a token that is neither the end nor `+` nor `-`
stops the run in `expect('-')`. -/
theorem mainLoop_needs_operator (fuel : Nat) (t : Token) (rest : List Token)
    (out : List String) (he : t.kind ≠ .TK_EOF) (ht : isOperator t = false) :
    mainLoop (fuel + 1) (t :: rest) out =
      abort out (.error ("\x27" ++ String.singleton '-' ++ "\x27ではありません")) := by
  have heof : (t.kind == TokenKind.TK_EOF) = false := by
    rw [beq_eq_false_iff_ne]; exact he
  have hno : ∀ c, c = '+' ∨ c = '-' → (t.kind ≠ .TK_RESERVED ∨ str0 t.str ≠ c) := by
    intro c hc
    by_cases hk : t.kind = .TK_RESERVED
    · right
      intro hs
      have : isOperator t = true := by
        rw [isOperator_spec]
        exact ⟨hk, by rcases hc with rfl | rfl <;> simp [hs]⟩
      rw [ht] at this
      cases this
    · exact Or.inl hk
  rw [mainLoop_succ, at_eof_cons, heof, consume_miss _ _ _ (hno '+' (Or.inl rfl))]
  simp only [expect_miss _ _ _ (hno '-' (Or.inr rfl))]

theorem instrLines_ne_ret (toks : List Token) : ∀ l ∈ instrLines toks, l ≠ "\tret\n" := by
  match toks with
  | [] => simp [instrLines]
  | [_] => simp [instrLines]
  | o :: n :: rest =>
    intro l hl
    simp only [instrLines, List.mem_cons] at hl
    rcases hl with rfl | hl
    · split
      · exact add_line_ne_ret _
      · exact sub_line_ne_ret _
    · exact instrLines_ne_ret rest l hl

theorem ret_not_mem_prefix_output (toks : List Token) :
    "\tret\n" ∉ preamble ++ prefixLines toks := by
  intro hmem
  rcases List.mem_append.mp hmem with hmem | hmem
  · revert hmem; decide
  · cases toks with
    | nil => simp [prefixLines] at hmem
    | cons n rest =>
      simp only [prefixLines, List.mem_cons] at hmem
      rcases hmem with hmem | hmem
      · exact mov_line_ne_ret _ hmem.symm
      · exact instrLines_ne_ret rest _ hmem rfl

/-- A token that is not a number, first or right after an operator that follows
a valid prefix, stops the run in `expect_number`; what was written before are
the lines of the valid prefix. -/
theorem compile_needs_number (pre : List Token) (t : Token) (rest : List Token)
    (hpos : pre = [] ∨
      ∃ vp o, isValidPrefix vp = true ∧ isOperator o = true ∧ pre = vp ++ [o])
    (ht : t.kind ≠ .TK_NUM) :
    compile (pre ++ t :: rest) =
      abort (preamble ++ prefixLines pre) (.error "数値ではありません") := by
  rcases hpos with rfl | ⟨vp, o, hvp, ho, rfl⟩
  · simp only [List.nil_append, compile, expect_number_miss _ _ ht, prefixLines,
      List.append_nil]
  · cases vp with
    | nil => simp [isValidPrefix] at hvp
    | cons n ps =>
      simp only [isValidPrefix, Bool.and_eq_true, beq_iff_eq] at hvp
      have hshape : (n :: ps ++ [o]) ++ t :: rest = n :: (ps ++ (o :: t :: rest)) := by simp
      have hfuel : (n :: (ps ++ (o :: t :: rest))).length =
          ((ps.length + 1 - ps.length / 2 + rest.length + 1) + 1) + ps.length / 2 := by
        simp only [List.length_cons, List.length_append]
        omega
      rw [hshape]
      simp only [compile, expect_number_hit _ _ hvp.1]
      rw [hfuel, mainLoop_pairs _ ps _ _ hvp.2, mainLoop_needs_number _ o t rest _ ho ht]
      have hl : prefixLines (n :: ps ++ [o]) =
          ("\tmov rax, " ++ fmt_d n.val ++ "\n") :: instrLines ps := by
        simp only [List.cons_append, prefixLines, instrLines_append ps [o] hvp.2, instrLines,
          List.append_nil]
      rw [hl]
      simp

/-- After a valid prefix, a token that is neither the end nor `+` nor `-` stops
the run in `expect('-')`; what was written before are the lines of the valid
prefix. -/
theorem compile_needs_operator (vp : List Token) (t : Token) (rest : List Token)
    (hvp : isValidPrefix vp = true) (he : t.kind ≠ .TK_EOF) (ht : isOperator t = false) :
    compile (vp ++ t :: rest) =
      abort (preamble ++ prefixLines vp)
        (.error ("\x27" ++ String.singleton '-' ++ "\x27ではありません")) := by
  cases vp with
  | nil => simp [isValidPrefix] at hvp
  | cons n ps =>
    simp only [isValidPrefix, Bool.and_eq_true, beq_iff_eq] at hvp
    have hfuel : (n :: ps ++ t :: rest).length =
        ((ps.length - ps.length / 2 + rest.length + 1) + 1) + ps.length / 2 := by
      simp only [List.cons_append, List.length_cons, List.length_append]
      omega
    simp only [compile, List.cons_append, expect_number_hit _ _ hvp.1]
    rw [← List.cons_append, hfuel, mainLoop_pairs _ ps _ _ hvp.2,
      mainLoop_needs_operator _ t rest _ he ht]
    simp [prefixLines]

/-! ## The primitives at a position of the token list -/

theorem drop_succ_of_drop (toks : List Token) (i : Nat) (t : Token) (next : List Token)
    (h : toks.drop i = t :: next) : toks.drop (i + 1) = next := by
  rw [← List.tail_drop, h]
  rfl

theorem abort_result (out : List String) (f : Fault) : (abort out f).result = .error f := by
  cases f <;> rfl

theorem abort_stderr_ne_usage (out : List String) (f : Fault) :
    (abort out f).stderr ≠ ["引数の個数が正しくありません\n"] := by
  cases f <;> simp [abort]

/-- With two arguments the run is that of `tokenize` and `compile`, which ends
through a fault or returns 0 with nothing on stderr. -/
theorem main_two_cases (a0 p : List Char) :
    (∃ out f, main [a0, p] = abort out f) ∨ (∃ out, main [a0, p] = ⟨out, [], .ok 0⟩) := by
  rw [main_two]
  cases hp : tokenize p with
  | error f => exact Or.inl ⟨[], f, rfl⟩
  | ok toks =>
    cases hprog : isProgram toks with
    | true =>
      cases toks with
      | nil => simp [isProgram] at hprog
      | cons n rest => exact Or.inr ⟨_, compile_accepts n rest hprog⟩
    | false =>
      obtain ⟨msg, lines, hrun, _⟩ := compile_rejects toks (tokenize_endsEOF p toks hp) hprog
      exact Or.inl ⟨_, _, hrun⟩

/-! ## The cursor along a run -/

theorem consume_inv (op : Char) (token : List Token) (b : Bool) (c : List Token)
    (h : consume op token = .ok (b, c)) :
    (b = false ∧ c = token) ∨
      (b = true ∧ ∃ t, token = t :: c ∧ t.kind = .TK_RESERVED ∧ str0 t.str = op) := by
  cases token with
  | nil => cases h
  | cons t next =>
    by_cases hit : t.kind = .TK_RESERVED ∧ str0 t.str = op
    · rw [consume_hit op t next hit.1 hit.2] at h
      cases h
      exact Or.inr ⟨rfl, t, rfl, hit.1, hit.2⟩
    · have hmiss : t.kind ≠ .TK_RESERVED ∨ str0 t.str ≠ op := by
        by_cases hk : t.kind = .TK_RESERVED
        · exact Or.inr (fun hx => hit ⟨hk, hx⟩)
        · exact Or.inl hk
      rw [consume_miss op t next hmiss] at h
      cases h
      exact Or.inl ⟨rfl, rfl⟩

theorem expect_inv (op : Char) (token c : List Token) (h : expect op token = .ok c) :
    ∃ t, token = t :: c ∧ t.kind = .TK_RESERVED ∧ str0 t.str = op := by
  cases token with
  | nil => cases h
  | cons t next =>
    by_cases hit : t.kind = .TK_RESERVED ∧ str0 t.str = op
    · rw [expect_hit op t next hit.1 hit.2] at h
      cases h
      exact ⟨t, rfl, hit.1, hit.2⟩
    · have hmiss : t.kind ≠ .TK_RESERVED ∨ str0 t.str ≠ op := by
        by_cases hk : t.kind = .TK_RESERVED
        · exact Or.inr (fun hx => hit ⟨hk, hx⟩)
        · exact Or.inl hk
      rw [expect_miss op t next hmiss] at h
      cases h

theorem expect_number_inv (token : List Token) (v : Int) (c : List Token)
    (h : expect_number token = .ok (v, c)) :
    ∃ t, token = t :: c ∧ t.kind = .TK_NUM ∧ v = t.val := by
  cases token with
  | nil => cases h
  | cons t next =>
    by_cases hk : t.kind = .TK_NUM
    · rw [expect_number_hit t next hk] at h
      cases h
      exact ⟨t, rfl, hk, rfl⟩
    · rw [expect_number_miss t next hk] at h
      cases h

theorem at_eof_inv (token : List Token) (h : at_eof token = .ok false) :
    ∃ t next, token = t :: next ∧ t.kind ≠ .TK_EOF := by
  cases token with
  | nil => cases h
  | cons t next =>
    refine ⟨t, next, rfl, ?_⟩
    intro hk
    rw [at_eof_cons, hk] at h
    cases h

theorem cursorStep_refl (c : List Token) : CursorStep c c := Or.inl rfl

theorem cursorStep_cons (t : Token) (c : List Token) : CursorStep (t :: c) c :=
  Or.inr ⟨by simp, rfl⟩

theorem endsEOF_tail (t : Token) (ts : List Token) (ht : t.kind ≠ .TK_EOF)
    (h : endsEOF (t :: ts) = true) : endsEOF ts = true := by
  cases ts with
  | nil => simp [endsEOF, ht] at h
  | cons u ts =>
    simp only [endsEOF, Bool.and_eq_true] at h
    exact h.2

theorem mainLoopLog_succ (fuel : Nat) (token : List Token) (out : List String) :
    mainLoopLog (fuel + 1) token out =
      match at_eof token with
      | .error f => (abort out f, [token])
      | .ok true => (⟨out ++ ["\tret\n"], [], .ok 0⟩, [token])
      | .ok false =>
        match consume '+' token with
        | .error f => (abort out f, [token, token])
        | .ok (true, t1) =>
          match expect_number t1 with
          | .error f => (abort out f, [token, token, t1])
          | .ok (v, t2) =>
            ((mainLoopLog fuel t2 (out ++ ["\tadd rax, " ++ fmt_d v ++ "\n"])).1,
              token :: token :: t1 ::
                (mainLoopLog fuel t2 (out ++ ["\tadd rax, " ++ fmt_d v ++ "\n"])).2)
        | .ok (false, t1) =>
          match expect '-' t1 with
          | .error f => (abort out f, [token, token, t1])
          | .ok t2 =>
            match expect_number t2 with
            | .error f => (abort out f, [token, token, t1, t2])
            | .ok (v, t3) =>
              ((mainLoopLog fuel t3 (out ++ ["\tsub rax, " ++ fmt_d v ++ "\n"])).1,
                token :: token :: t1 :: t2 ::
                  (mainLoopLog fuel t3 (out ++ ["\tsub rax, " ++ fmt_d v ++ "\n"])).2) := rfl

/-- The logging loop ends as `mainLoop` does. -/
theorem mainLoopLog_fst (fuel : Nat) (token : List Token) (out : List String) :
    (mainLoopLog fuel token out).1 = mainLoop fuel token out := by
  induction fuel generalizing token out with
  | zero => rfl
  | succ fuel ih =>
    rw [mainLoop_succ, mainLoopLog_succ]
    cases at_eof token with
    | error f => rfl
    | ok b =>
      cases b with
      | true => rfl
      | false =>
        simp only []
        cases consume '+' token with
        | error f => rfl
        | ok r =>
          obtain ⟨b, t1⟩ := r
          cases b with
          | true =>
            simp only []
            cases expect_number t1 with
            | error f => rfl
            | ok r2 => exact ih _ _
          | false =>
            simp only []
            cases expect '-' t1 with
            | error f => rfl
            | ok t2 =>
              simp only []
              cases expect_number t2 with
              | error f => rfl
              | ok r2 => exact ih _ _

theorem compileLog_fst (token : List Token) : (compileLog token).1 = compile token := by
  unfold compileLog compile
  cases expect_number token with
  | error f => rfl
  | ok r => exact mainLoopLog_fst _ _ _

theorem chain_shift {a b : List Token} {l : List (List Token)}
    (h : List.Chain CursorStep b l) (hhead : ∀ c, l.head? = some c → c = b)
    (hab : CursorStep a b) : List.Chain CursorStep a l := by
  cases l with
  | nil => exact List.Chain.nil
  | cons c cs =>
    have hc : c = b := hhead c rfl
    rw [hc] at h ⊢
    exact List.Chain.cons hab (List.chain_cons.mp h).2

/-- Along the loop every primitive is called with the cursor the previous call
left or with its successor, the first one with the cursor the loop starts
from; and from a cursor in a list that ends in `TK_EOF` every primitive is
called at a token of that list. -/
theorem mainLoopLog_chain (fuel : Nat) (token : List Token) (out : List String) :
    List.Chain CursorStep token (mainLoopLog fuel token out).2 ∧
    (∀ c, (mainLoopLog fuel token out).2.head? = some c → c = token) ∧
    (endsEOF token = true → ∀ c ∈ (mainLoopLog fuel token out).2, endsEOF c = true) := by
  induction fuel generalizing token out with
  | zero => exact ⟨List.Chain.nil, fun c hc => (by cases hc), fun _ c hc => (by cases hc)⟩
  | succ fuel ih =>
    have hr := cursorStep_refl token
    have hhead : ∀ (l : List (List Token)) c, (token :: l).head? = some c → c = token := by
      intro l c hc
      simp only [List.head?_cons, Option.some.injEq] at hc
      exact hc.symm
    rw [mainLoopLog_succ]
    cases h1 : at_eof token with
    | error f =>
      exact ⟨List.Chain.cons hr List.Chain.nil, hhead _, fun he c hc => by
        simp only [List.mem_singleton] at hc; rw [hc]; exact he⟩
    | ok b =>
      cases b with
      | true =>
        exact ⟨List.Chain.cons hr List.Chain.nil, hhead _, fun he c hc => by
          simp only [List.mem_singleton] at hc; rw [hc]; exact he⟩
      | false =>
        simp only []
        cases h2 : consume '+' token with
        | error f =>
          exact ⟨List.Chain.cons hr (List.Chain.cons hr List.Chain.nil), hhead _,
            fun he c hc => by
              simp only [List.mem_cons, List.mem_singleton, List.not_mem_nil, or_false,
                or_self] at hc
              rw [hc]; exact he⟩
        | ok r =>
          obtain ⟨b, t1⟩ := r
          cases b with
          | true =>
            rcases consume_inv _ _ _ _ h2 with ⟨hb, _⟩ | ⟨_, u, hu, hk, _⟩
            · cases hb
            have hs1 : CursorStep token t1 := by rw [hu]; exact cursorStep_cons u t1
            have he1 : endsEOF token = true → endsEOF t1 = true := by
              intro he
              rw [hu] at he
              exact endsEOF_tail u t1 (by rw [hk]; decide) he
            simp only []
            cases h3 : expect_number t1 with
            | error f =>
              exact ⟨List.Chain.cons hr (List.Chain.cons hr (List.Chain.cons hs1
                List.Chain.nil)), hhead _, fun he c hc => by
                simp only [List.mem_cons, List.mem_singleton, List.not_mem_nil, or_false] at hc
                rcases hc with rfl | rfl | rfl
                · exact he
                · exact he
                · exact he1 he⟩
            | ok r2 =>
              obtain ⟨v, t2⟩ := r2
              obtain ⟨n, hn, hnk, _⟩ := expect_number_inv _ _ _ h3
              have hs2 : CursorStep t1 t2 := by rw [hn]; exact cursorStep_cons n t2
              obtain ⟨ih1, ih2, ih3⟩ := ih t2 (out ++ ["\tadd rax, " ++ fmt_d v ++ "\n"])
              have he2 : endsEOF token = true → endsEOF t2 = true := by
                intro he
                have := he1 he
                rw [hn] at this
                exact endsEOF_tail n t2 (by rw [hnk]; decide) this
              refine ⟨List.Chain.cons hr (List.Chain.cons hr (List.Chain.cons hs1
                (chain_shift ih1 ih2 hs2))), hhead _, ?_⟩
              intro he c hc
              simp only [List.mem_cons] at hc
              rcases hc with rfl | rfl | rfl | hc
              · exact he
              · exact he
              · exact he1 he
              · exact ih3 (he2 he) c hc
          | false =>
            rcases consume_inv _ _ _ _ h2 with ⟨_, ht1⟩ | ⟨hb, _⟩
            swap
            · cases hb
            rw [ht1]
            simp only []
            cases h3 : expect '-' token with
            | error f =>
              exact ⟨List.Chain.cons hr (List.Chain.cons hr (List.Chain.cons hr
                List.Chain.nil)), hhead _, fun he c hc => by
                simp only [List.mem_cons, List.mem_singleton, List.not_mem_nil, or_false,
                  or_self] at hc
                rw [hc]; exact he⟩
            | ok t2 =>
              obtain ⟨u, hu, hk, _⟩ := expect_inv _ _ _ h3
              have hs1 : CursorStep token t2 := by rw [hu]; exact cursorStep_cons u t2
              have he1 : endsEOF token = true → endsEOF t2 = true := by
                intro he
                rw [hu] at he
                exact endsEOF_tail u t2 (by rw [hk]; decide) he
              simp only []
              cases h4 : expect_number t2 with
              | error f =>
                exact ⟨List.Chain.cons hr (List.Chain.cons hr (List.Chain.cons hr
                  (List.Chain.cons hs1 List.Chain.nil))), hhead _, fun he c hc => by
                  simp only [List.mem_cons, List.mem_singleton, List.not_mem_nil,
                    or_false] at hc
                  rcases hc with rfl | rfl | rfl | rfl
                  · exact he
                  · exact he
                  · exact he
                  · exact he1 he⟩
              | ok r2 =>
                obtain ⟨v, t3⟩ := r2
                obtain ⟨n, hn, hnk, _⟩ := expect_number_inv _ _ _ h4
                have hs2 : CursorStep t2 t3 := by rw [hn]; exact cursorStep_cons n t3
                obtain ⟨ih1, ih2, ih3⟩ := ih t3 (out ++ ["\tsub rax, " ++ fmt_d v ++ "\n"])
                have he2 : endsEOF token = true → endsEOF t3 = true := by
                  intro he
                  have := he1 he
                  rw [hn] at this
                  exact endsEOF_tail n t3 (by rw [hnk]; decide) this
                refine ⟨List.Chain.cons hr (List.Chain.cons hr (List.Chain.cons hr
                  (List.Chain.cons hs1 (chain_shift ih1 ih2 hs2)))), hhead _, ?_⟩
                intro he c hc
                simp only [List.mem_cons] at hc
                rcases hc with rfl | rfl | rfl | rfl | hc
                · exact he
                · exact he
                · exact he
                · exact he1 he
                · exact ih3 (he2 he) c hc

theorem compileLog_chain (toks : List Token) :
    List.Chain CursorStep toks (compileLog toks).2 ∧
    (endsEOF toks = true → ∀ c ∈ (compileLog toks).2, endsEOF c = true) := by
  have hr := cursorStep_refl toks
  unfold compileLog
  cases h : expect_number toks with
  | error f =>
    exact ⟨List.Chain.cons hr List.Chain.nil, fun he c hc => by
      simp only [List.mem_singleton] at hc; rw [hc]; exact he⟩
  | ok r =>
    obtain ⟨v, rest⟩ := r
    obtain ⟨n, hn, hnk, _⟩ := expect_number_inv _ _ _ h
    obtain ⟨h1, h2, h3⟩ :=
      mainLoopLog_chain toks.length rest (preamble ++ ["\tmov rax, " ++ fmt_d v ++ "\n"])
    have hs : CursorStep toks rest := by rw [hn]; exact cursorStep_cons n rest
    refine ⟨List.Chain.cons hr (chain_shift h1 h2 hs), ?_⟩
    intro he c hc
    simp only [List.mem_cons] at hc
    rcases hc with rfl | hc
    · exact he
    · have he2 : endsEOF rest = true := by
        rw [hn] at he
        exact endsEOF_tail n rest (by rw [hnk]; decide) he
      exact h3 he2 c hc

/-- A chain of cursor moves from the position `i` of `toks` visits positions of
`toks` whose indices go up by zero or one at each move. -/
theorem chain_index (toks : List Token) (log : List (List Token)) :
    ∀ i, i ≤ toks.length → List.Chain CursorStep (toks.drop i) log →
      ∃ idxs : List Nat, log = idxs.map (fun j => toks.drop j) ∧
        List.Chain (fun a b => b = a ∨ b = a + 1) i idxs ∧ ∀ j ∈ idxs, j ≤ toks.length := by
  induction log with
  | nil => exact fun i _ _ => ⟨[], rfl, List.Chain.nil, by simp⟩
  | cons c cs ih =>
    intro i hi hch
    obtain ⟨hstep, hrest⟩ := List.chain_cons.mp hch
    rcases hstep with hc | ⟨hne, hc⟩
    · rw [hc] at hrest
      obtain ⟨idxs, h1, h2, h3⟩ := ih i hi hrest
      refine ⟨i :: idxs, by rw [hc, h1]; rfl, List.Chain.cons (Or.inl rfl) h2, ?_⟩
      intro j hj
      rcases List.mem_cons.mp hj with rfl | hj
      · exact hi
      · exact h3 j hj
    · have hlt : i < toks.length := by
        by_contra hge
        exact hne (List.drop_eq_nil_iff.mpr (by omega))
      rw [List.tail_drop] at hc
      rw [hc] at hrest
      obtain ⟨idxs, h1, h2, h3⟩ := ih (i + 1) (by omega) hrest
      refine ⟨(i + 1) :: idxs, by rw [hc, h1]; rfl, List.Chain.cons (Or.inr rfl) h2, ?_⟩
      intro j hj
      rcases List.mem_cons.mp hj with rfl | hj
      · omega
      · exact h3 j hj

theorem endsEOF_successor (toks : List Token) (h : endsEOF toks = true) :
    ∀ i t, toks[i]? = some t → t.kind ≠ .TK_EOF → i + 1 < toks.length := by
  induction toks with
  | nil => simp [endsEOF] at h
  | cons t0 ts ih =>
    cases ts with
    | nil =>
      intro i t hi hk
      have he : t0.kind = .TK_EOF := by simpa [endsEOF] using h
      cases i with
      | zero =>
        simp only [List.getElem?_cons_zero, Option.some.injEq] at hi
        rw [← hi] at hk
        exact absurd he hk
      | succ i => simp at hi
    | cons u ts =>
      intro i t hi hk
      simp only [endsEOF, Bool.and_eq_true] at h
      cases i with
      | zero => simp
      | succ i =>
        simp only [List.getElem?_cons_succ] at hi
        have := ih h.2 i t hi hk
        simp only [List.length_cons] at this ⊢
        omega

/-- Every run of `main` ends by a return from `main` or through `error()`. -/
theorem main_ends (argv : List (List Char)) :
    (∃ n, (main argv).result = .ok n) ∨ ∃ msg, (main argv).result = .error (.error msg) := by
  by_cases hlen : argv.length ≠ 2
  · left
    exact ⟨1, by simp only [main, if_pos hlen]⟩
  · have h2 : argv.length = 2 := by
      by_contra hne
      exact hlen hne
    match argv, h2 with
    | [a0, p], _ =>
      rw [main_two]
      rcases tokenize_total p with ⟨⟨toks, hok⟩, _⟩ | ⟨herr, _⟩
      · rw [hok]
        cases hprog : isProgram toks with
        | true =>
          cases toks with
          | nil => simp [isProgram] at hprog
          | cons n rest =>
            left
            refine ⟨0, ?_⟩
            show (compile (n :: rest)).result = .ok 0
            rw [compile_accepts n rest hprog]
        | false =>
          obtain ⟨msg, lines, hrun, _⟩ :=
            compile_rejects toks (tokenize_endsEOF p toks hok) hprog
          right
          refine ⟨msg, ?_⟩
          show (compile toks).result = .error (.error msg)
          rw [hrun]
          rfl
      · right
        rw [herr]
        exact ⟨_, rfl⟩

/-! ## What a rejected input leaves on standard output -/

theorem opNumPrefix_cons_cons (o n : Token) (rest : List Token)
    (ho : isOperator o = true) (hn : n.kind = .TK_NUM) :
    opNumPrefix (o :: n :: rest) = o :: n :: opNumPrefix rest := by
  simp [opNumPrefix, ho, hn]

theorem opNumPrefix_stop (o n : Token) (rest : List Token)
    (h : isOperator o = false ∨ n.kind ≠ .TK_NUM) : opNumPrefix (o :: n :: rest) = [] := by
  rcases h with h | h <;> simp [opNumPrefix, h]

/-- On a tail that ends in `TK_EOF` but does not match the grammar the loop
stops through `error()` after the lines of the longest prefix `(op NUMBER)*`. -/
theorem mainLoop_rejects_lines (fuel : Nat) (toks : List Token) (out : List String)
    (hf : toks.length < 2 * fuel) (he : endsEOF toks = true) (h : isOpNumsEnd toks = false) :
    ∃ msg, mainLoop fuel toks out =
      abort (out ++ instrLines (opNumPrefix toks)) (.error msg) := by
  induction fuel generalizing toks out with
  | zero => omega
  | succ fuel ih =>
    match toks, he, h with
    | [e], he, h =>
      have hk : e.kind = .TK_EOF := by simpa [endsEOF] using he
      simp [isOpNumsEnd, hk] at h
    | o :: n :: rest, he, h =>
      simp only [endsEOF, Bool.and_eq_true, bne_iff_ne, ne_eq] at he
      obtain ⟨hoe, hrest⟩ := he
      have hlen : rest.length < 2 * fuel := by
        simp only [List.length_cons] at hf; omega
      cases ho : isOperator o with
      | false =>
        refine ⟨"\x27" ++ String.singleton '-' ++ "\x27ではありません", ?_⟩
        rw [mainLoop_needs_operator fuel o (n :: rest) out hoe ho,
          opNumPrefix_stop o n rest (Or.inl ho)]
        simp [instrLines]
      | true =>
        by_cases hn : n.kind = .TK_NUM
        · obtain ⟨hk, hc⟩ := (isOperator_spec o).mp ho
          have hr : isOpNumsEnd rest = false := by
            have hc2 : (str0 o.str == '+' || str0 o.str == '-') = true := by
              simpa using hc
            simpa [isOpNumsEnd, hk, hc2, hn] using h
          obtain ⟨msg, hrun⟩ := ih rest (out ++ instrLines [o, n]) hlen
            (endsEOF_tail_of_num n rest hn hrest) hr
          refine ⟨msg, ?_⟩
          rw [mainLoop_pair fuel o n rest out ho hn, hrun, opNumPrefix_cons_cons o n rest ho hn,
            instrLines_cons_cons o n (opNumPrefix rest), List.append_assoc]
        · refine ⟨"数値ではありません", ?_⟩
          rw [mainLoop_needs_number fuel o n rest out ho hn,
            opNumPrefix_stop o n rest (Or.inr hn)]
          simp [instrLines]

theorem compile_rejects_lines (toks : List Token) (he : endsEOF toks = true)
    (h : isProgram toks = false) :
    ∃ msg, compile toks = abort (preamble ++ prefixLines (validPrefix toks)) (.error msg) := by
  cases toks with
  | nil => simp [endsEOF] at he
  | cons n rest =>
    by_cases hn : n.kind = .TK_NUM
    · have hr : isOpNumsEnd rest = false := by simpa [isProgram, hn] using h
      obtain ⟨msg, hrun⟩ :=
        mainLoop_rejects_lines (n :: rest).length rest
          (preamble ++ ["\tmov rax, " ++ fmt_d n.val ++ "\n"])
          (by simp only [List.length_cons]; omega) (endsEOF_tail_of_num n rest hn he) hr
      refine ⟨msg, ?_⟩
      simp only [compile, expect_number_hit _ _ hn, hrun, validPrefix, hn, beq_self_eq_true,
        if_true, prefixLines, List.append_assoc, List.singleton_append]
    · refine ⟨"数値ではありません", ?_⟩
      have hb : (n.kind == TokenKind.TK_NUM) = false := by
        rw [beq_eq_false_iff_ne]; exact hn
      simp only [compile, expect_number_miss _ _ hn, validPrefix, hb, Bool.false_eq_true,
        if_false, prefixLines, List.append_nil]

theorem opNumPrefix_starts : ∀ toks : List Token, opNumPrefix toks <+: toks
  | [] => List.prefix_refl _
  | [_] => List.nil_prefix
  | o :: n :: rest => by
    by_cases h : isOperator o = true ∧ n.kind = .TK_NUM
    · rw [opNumPrefix_cons_cons o n rest h.1 h.2]
      exact (List.prefix_cons_inj o).mpr ((List.prefix_cons_inj n).mpr (opNumPrefix_starts rest))
    · have h2 : isOperator o = false ∨ n.kind ≠ .TK_NUM := by
        by_cases ho : isOperator o = true
        · exact Or.inr (fun hn => h ⟨ho, hn⟩)
        · exact Or.inl (by simpa using ho)
      rw [opNumPrefix_stop o n rest h2]
      exact List.nil_prefix

theorem opNumPrefix_valid : ∀ toks : List Token, isOpNums (opNumPrefix toks) = true
  | [] => rfl
  | [_] => rfl
  | o :: n :: rest => by
    by_cases h : isOperator o = true ∧ n.kind = .TK_NUM
    · rw [opNumPrefix_cons_cons o n rest h.1 h.2]
      simp [isOpNums, h.1, h.2, opNumPrefix_valid rest]
    · have h2 : isOperator o = false ∨ n.kind ≠ .TK_NUM := by
        by_cases ho : isOperator o = true
        · exact Or.inr (fun hn => h ⟨ho, hn⟩)
        · exact Or.inl (by simpa using ho)
      rw [opNumPrefix_stop o n rest h2]
      rfl

theorem opNumPrefix_max : ∀ (q toks : List Token), q <+: toks → isOpNums q = true →
    q <+: opNumPrefix toks
  | [], _, _, _ => List.nil_prefix
  | [_], _, _, h => by simp [isOpNums] at h
  | o :: n :: q, toks, hp, h => by
    simp only [isOpNums, Bool.and_eq_true, beq_iff_eq] at h
    obtain ⟨r, hr⟩ := hp
    have ht : toks = o :: n :: (q ++ r) := by rw [← hr]; simp
    rw [ht, opNumPrefix_cons_cons o n _ h.1.1 h.1.2]
    exact (List.prefix_cons_inj o).mpr ((List.prefix_cons_inj n).mpr
      (opNumPrefix_max q (q ++ r) (List.prefix_append q r) h.2))

/-- The list `validPrefix toks` is a prefix of `toks` of the form
`NUMBER (op NUMBER)*` unless it is empty, and every prefix of `toks` of that
form is a prefix of it: it is the longest one. -/
theorem validPrefix_longest (toks : List Token) :
    validPrefix toks <+: toks ∧
    (validPrefix toks ≠ [] → isValidPrefix (validPrefix toks) = true) ∧
    (∀ q, q <+: toks → isValidPrefix q = true → q <+: validPrefix toks) := by
  cases toks with
  | nil =>
    refine ⟨List.prefix_refl _, fun h => absurd rfl h, ?_⟩
    intro q hq hv
    rw [List.prefix_nil] at hq
    rw [hq] at hv
    simp [isValidPrefix] at hv
  | cons n rest =>
    by_cases hn : n.kind = .TK_NUM
    · have hvp : validPrefix (n :: rest) = n :: opNumPrefix rest := by
        simp [validPrefix, hn]
      rw [hvp]
      refine ⟨(List.prefix_cons_inj n).mpr (opNumPrefix_starts rest), ?_, ?_⟩
      · intro _
        simp [isValidPrefix, hn, opNumPrefix_valid rest]
      · intro q hq hv
        cases q with
        | nil => simp [isValidPrefix] at hv
        | cons m q =>
          obtain ⟨hm, hq2⟩ := List.cons_prefix_cons.mp hq
          simp only [isValidPrefix, Bool.and_eq_true, beq_iff_eq] at hv
          rw [hm]
          exact (List.prefix_cons_inj n).mpr (opNumPrefix_max q rest hq2 hv.2)
    · have hb : (n.kind == TokenKind.TK_NUM) = false := by
        rw [beq_eq_false_iff_ne]; exact hn
      have hvp : validPrefix (n :: rest) = [] := by
        simp [validPrefix, hb]
      rw [hvp]
      refine ⟨List.nil_prefix, fun h => absurd rfl h, ?_⟩
      intro q hq hv
      cases q with
      | nil => simp [isValidPrefix] at hv
      | cons m q =>
        obtain ⟨hm, _⟩ := List.cons_prefix_cons.mp hq
        simp only [isValidPrefix, Bool.and_eq_true, beq_iff_eq] at hv
        rw [hm] at hv
        exact absurd hv.1 hn

/-! ## Termination -/

/-- At most one token per character, and the end token. -/
theorem tokenize_length (p : List Char) :
    ∀ toks, tokenize p = .ok toks → toks.length ≤ p.length + 1 := by
  induction p using tokenize_induction with
  | nil =>
    intro toks h
    rw [tokenize_nil] at h
    cases h
    simp
  | space c rest hs ih =>
    intro toks h
    rw [tokenize_space c rest hs] at h
    have := ih toks h
    simp only [List.length_cons]
    omega
  | op c rest hc ih =>
    intro toks h
    rw [tokenize_op c rest hc] at h
    obtain ⟨ts, hts, rfl⟩ := except_map_eq_ok _ _ _ h
    have := ih ts hts
    simp only [List.length_cons]
    omega
  | digit c rest hd ih =>
    intro toks h
    rw [tokenize_digit c rest hd] at h
    obtain ⟨ts, hts, rfl⟩ := except_map_eq_ok _ _ _ h
    have := ih ts hts
    have hl : ((c :: rest).dropWhile isdigit).length ≤ rest.length := by
      simp only [List.dropWhile, hd]
      exact dropWhile_length_le _ _
    simp only [List.length_cons]
    omega
  | other c rest ho =>
    intro toks h
    rw [isOther_tokenize c rest ho] at h
    cases h

theorem strtol_advances (c : Char) (rest : List Char) (h : isdigit c = true) :
    (strtol (c :: rest)).2.length < (c :: rest).length := by
  rw [strtol_digit c rest h]
  have hl : ((c :: rest).dropWhile isdigit).length ≤ rest.length := by
    simp only [List.dropWhile, h]
    exact dropWhile_length_le _ _
  simp only [List.length_cons]
  omega

/-- One iteration of the loop of `tokenize` fails or goes on from a position
that is at least one character further. -/
theorem tokenizeLoop_progress (fuel : Nat) (c : Char) (rest : List Char) (cur : List Token) :
    tokenizeLoop (fuel + 1) (c :: rest) cur = .error (.error "トークナイズできません") ∨
    ∃ p' cur', p'.length < (c :: rest).length ∧
      tokenizeLoop (fuel + 1) (c :: rest) cur = tokenizeLoop fuel p' cur' := by
  rw [tokenizeLoop_cons]
  by_cases hs : isspace c = true
  · exact Or.inr ⟨rest, cur, by simp, by rw [if_pos hs]⟩
  · by_cases hpm : c = '+' ∨ c = '-'
    · exact Or.inr ⟨rest, _, by simp, by rw [if_neg hs, if_pos hpm]⟩
    · by_cases hd : isdigit c = true
      · exact Or.inr ⟨_, _, strtol_advances c rest hd, by rw [if_neg hs, if_neg hpm, if_pos hd]⟩
      · exact Or.inl (by rw [if_neg hs, if_neg hpm, if_neg hd])

/-- One turn of the loop of `main`: the run stops through a fault, or `main`
returns after `ret`, or the cursor has moved over one operator and one number
and the loop goes on. -/
theorem mainLoop_turn (token : List Token) (out : List String) :
    (∃ f, f ≠ .outOfFuel ∧ ∀ fuel, mainLoop (fuel + 1) token out = abort out f) ∨
    (∀ fuel, mainLoop (fuel + 1) token out = ⟨out ++ ["\tret\n"], [], .ok 0⟩) ∨
    (∃ o n rest line, token = o :: n :: rest ∧ o.kind = .TK_RESERVED ∧ n.kind = .TK_NUM ∧
      ∀ fuel, mainLoop (fuel + 1) token out = mainLoop fuel rest (out ++ [line])) := by
  cases h1 : at_eof token with
  | error f =>
    have hf : f = .nullDeref := by
      cases token with
      | nil => cases h1; rfl
      | cons t ts => cases h1
    exact Or.inl ⟨f, by rw [hf]; simp, fun fuel => by rw [mainLoop_succ, h1]⟩
  | ok b =>
    cases b with
    | true => exact Or.inr (Or.inl (fun fuel => by rw [mainLoop_succ, h1]))
    | false =>
      obtain ⟨t, next, htok, hne⟩ := at_eof_inv token h1
      by_cases ho : isOperator t = true
      · cases next with
        | nil =>
          obtain ⟨hk, hc⟩ := (isOperator_spec t).mp ho
          refine Or.inl ⟨.nullDeref, by simp, fun fuel => ?_⟩
          rw [mainLoop_succ, h1, htok]
          by_cases hplus : str0 t.str = '+'
          · rw [consume_hit _ _ _ hk hplus]
            rfl
          · have hminus : str0 t.str = '-' := by
              rcases hc with hc | hc
              · exact absurd hc hplus
              · exact hc
            rw [consume_miss _ _ _ (Or.inr hplus)]
            simp only [expect_hit _ _ _ hk hminus]
            rfl
        | cons n rest =>
          by_cases hn : n.kind = .TK_NUM
          · refine Or.inr (Or.inr ⟨t, n, rest,
              (if str0 t.str = '+' then "\tadd rax, " else "\tsub rax, ") ++ fmt_d n.val ++
                "\n", htok, ((isOperator_spec t).mp ho).1, hn, fun fuel => ?_⟩)
            rw [htok, mainLoop_pair fuel t n rest out ho hn]
            rfl
          · refine Or.inl ⟨.error "数値ではありません", by simp, fun fuel => ?_⟩
            rw [htok, mainLoop_needs_number fuel t n rest out ho hn]
      · refine Or.inl ⟨.error ("\x27" ++ String.singleton '-' ++ "\x27ではありません"),
          by simp, fun fuel => ?_⟩
        rw [htok, mainLoop_needs_operator fuel t next out hne (by simpa using ho)]

/-- The loop of `main` ends before its steps run out when it has one step more
than half the number of tokens left, and further steps change nothing. -/
theorem mainLoop_fuel (fuel fuel' : Nat) (token : List Token) (out : List String)
    (h : token.length < 2 * fuel) (h' : token.length < 2 * fuel') :
    mainLoop fuel token out = mainLoop fuel' token out ∧
      (mainLoop fuel token out).result ≠ .error .outOfFuel := by
  induction fuel generalizing fuel' token out with
  | zero => omega
  | succ fuel ih =>
    cases fuel' with
    | zero => omega
    | succ fuel' =>
      rcases mainLoop_turn token out with ⟨f, hf, hrun⟩ | hrun | ⟨o, n, rest, line, htok, _, _, hrun⟩
      · rw [hrun fuel, hrun fuel', abort_result]
        exact ⟨rfl, fun hbad => hf (by cases hbad; rfl)⟩
      · rw [hrun fuel, hrun fuel']
        exact ⟨rfl, by simp⟩
      · rw [hrun fuel, hrun fuel']
        rw [htok] at h h'
        simp only [List.length_cons] at h h'
        exact ih fuel' rest _ (by omega) (by omega)

/-! ## Claims -/

/-- C1: when `tokenize` accepts the input and the tokens are
`NUM (OP NUM)* END`, `main` returns 0 and standard output is exactly the three
preamble lines, `mov rax, n1`, one `add rax, ni` or `sub rax, ni` per operator
(`add` for `+`, `sub` for `-`) in source order, and `ret`, each literal being
the `%d` rendering of the token value. -/
theorem main_emits_program (a0 p : List Char) (n : Token) (rest : List Token)
    (htok : tokenize p = .ok (n :: rest)) (hprog : isProgram (n :: rest) = true) :
    main [a0, p] =
      ⟨[".intel_syntax noprefix\n", ".globl main\n", "main:\n",
          "\tmov rax, " ++ fmt_d n.val ++ "\n"] ++ instrLines rest ++ ["\tret\n"],
        [], .ok 0⟩ := by
  rw [main_two, htok]
  exact compile_accepts n rest hprog

theorem main_emits_program_witness :
    main ["9cc".toList, "5+20-4".toList] =
      ⟨[".intel_syntax noprefix\n", ".globl main\n", "main:\n", "\tmov rax, 5\n",
          "\tadd rax, 20\n", "\tsub rax, 4\n", "\tret\n"], [], .ok 0⟩ :=
  main_emits_program "9cc".toList "5+20-4".toList ⟨.TK_NUM, 5, "5+20-4".toList⟩
    [⟨.TK_RESERVED, 0, "+20-4".toList⟩, ⟨.TK_NUM, 20, "20-4".toList⟩,
      ⟨.TK_RESERVED, 0, "-4".toList⟩, ⟨.TK_NUM, 4, "4".toList⟩, ⟨.TK_EOF, 0, []⟩]
    (by decide) (by decide)

/-- C2: for a well-formed source expression `N1 op1 N2 op2 ... Nk` (literals
at most 2^31-1, operators `+` and `-`, white space allowed around the tokens)
`main` returns 0, and running the emitted lines in order (`mov` sets the
accumulator to its literal, `add` adds its literal, `sub` subtracts it) ends
with the integer that evaluating the source from left to right gives; for a
single literal `N` the accumulator ends as `N`. -/
theorem emitted_code_computes_value (a0 lead first trail : List Char) (items : List OpLit)
    (hlead : ∀ c ∈ lead, isspace c = true) (hfirst : isLiteral first = true)
    (hitems : ∀ it ∈ items, it.wf = true) (htrail : ∀ c ∈ trail, isspace c = true) :
    ∃ out, main [a0, srcText lead first items trail] = ⟨out, [], .ok 0⟩ ∧
      (∀ rax, runAsm out rax = some (srcValue first items)) ∧
      (items = [] → ∀ rax, runAsm out rax = some (decValue first : Int)) := by
  obtain ⟨toks, htoks, hprog, hrun⟩ := tail_run items trail hitems htrail
  obtain ⟨l1, l2, l3⟩ := isLiteral_spec first hfirst
  have hhead := tailText_head items trail hitems htrail
  have htok : tokenize (srcText lead first items trail) =
      .ok (⟨.TK_NUM, (decValue first : Int), first ++ tailText items trail⟩ :: toks) := by
    rw [srcText, tokenize_spaces _ _ hlead, tokenize_digits _ _ l1 l2 hhead, htoks,
      literal_val _ l3]
    rfl
  have hp : isProgram
      (⟨.TK_NUM, (decValue first : Int), first ++ tailText items trail⟩ :: toks) = true := by
    simp [isProgram, hprog]
  have hval : ∀ rax,
      runAsm (preamble ++ ["\tmov rax, " ++ fmt_d (decValue first : Int) ++ "\n"] ++
        instrLines toks ++ ["\tret\n"]) rax = some (srcValue first items) := by
    intro rax
    rw [List.append_assoc, List.append_assoc, runAsm_preamble, List.singleton_append,
      runAsm_mov, hrun]
    rfl
  refine ⟨_, ?_, hval, ?_⟩
  · rw [main_two, htok]
    exact compile_accepts _ _ hp
  · intro hnil rax
    rw [hval rax, hnil]
    rfl

theorem emitted_code_computes_value_witness :
    ∃ out, main ["9cc".toList,
        srcText " ".toList "12".toList
          [⟨" ".toList, '+', [], "30".toList⟩, ⟨[], '-', "\t ".toList, "045".toList⟩] []] =
        ⟨out, [], .ok 0⟩ ∧
      (∀ rax, runAsm out rax = some (srcValue "12".toList
        [⟨" ".toList, '+', [], "30".toList⟩, ⟨[], '-', "\t ".toList, "045".toList⟩])) ∧
      (([⟨" ".toList, '+', [], "30".toList⟩, ⟨[], '-', "\t ".toList, "045".toList⟩] :
          List OpLit) = [] →
        ∀ rax, runAsm out rax = some (decValue "12".toList : Int)) :=
  emitted_code_computes_value "9cc".toList " ".toList "12".toList []
    [⟨" ".toList, '+', [], "30".toList⟩, ⟨[], '-', "\t ".toList, "045".toList⟩]
    (by decide) (by decide) (by decide) (by decide)

/-- C3: for the tokens `tokenize` returns, `main` returns 0 exactly when they
match `NUMBER (('+' | '-') NUMBER)* END`, and then `ret` is the last line
written; otherwise the run ends through `error()` with exit status 1 and `ret`
is never written. -/
theorem main_returns_iff_program (a0 p : List Char) (toks : List Token)
    (htok : tokenize p = .ok toks) :
    ((main [a0, p]).result = .ok 0 ↔ isProgram toks = true) ∧
    (isProgram toks = true → (main [a0, p]).stdout.getLast? = some "\tret\n") ∧
    (isProgram toks = false →
      "\tret\n" ∉ (main [a0, p]).stdout ∧
      ∃ msg, (main [a0, p]).result = .error (.error msg) ∧
        (main [a0, p]).stderr = [msg, "\n"] ∧ (main [a0, p]).status = some 1) := by
  have hacc : isProgram toks = true →
      (main [a0, p]).result = .ok 0 ∧ (main [a0, p]).stdout.getLast? = some "\tret\n" := by
    intro hp
    cases toks with
    | nil => simp [isProgram] at hp
    | cons n rest =>
      have hm : main [a0, p] = compile (n :: rest) := by rw [main_two, htok]
      rw [hm, compile_accepts n rest hp]
      exact ⟨rfl, List.getLast?_concat _⟩
  have hrej : isProgram toks = false →
      "\tret\n" ∉ (main [a0, p]).stdout ∧
      ∃ msg, (main [a0, p]).result = .error (.error msg) ∧
        (main [a0, p]).stderr = [msg, "\n"] ∧ (main [a0, p]).status = some 1 := by
    intro hp
    obtain ⟨msg, lines, hrun, hl⟩ := compile_rejects toks (tokenize_endsEOF p toks htok) hp
    rw [main_two, htok]
    simp only [hrun, abort]
    refine ⟨?_, msg, rfl, rfl, rfl⟩
    intro hmem
    rcases List.mem_append.mp hmem with hmem | hmem
    · revert hmem; decide
    · exact hl _ hmem rfl
  refine ⟨⟨?_, fun hp => (hacc hp).1⟩, fun hp => (hacc hp).2, hrej⟩
  intro hres
  by_contra hp
  obtain ⟨_, msg, hmsg, _⟩ := hrej (by simpa using hp)
  rw [hmsg] at hres
  cases hres

theorem main_returns_iff_program_witness :
    ((main ["9cc".toList, "1 2".toList]).result = .ok 0 ↔
      isProgram [⟨.TK_NUM, 1, "1 2".toList⟩, ⟨.TK_NUM, 2, "2".toList⟩, ⟨.TK_EOF, 0, []⟩] = true) ∧
    (isProgram [⟨.TK_NUM, 1, "1 2".toList⟩, ⟨.TK_NUM, 2, "2".toList⟩, ⟨.TK_EOF, 0, []⟩] = true →
      (main ["9cc".toList, "1 2".toList]).stdout.getLast? = some "\tret\n") ∧
    (isProgram [⟨.TK_NUM, 1, "1 2".toList⟩, ⟨.TK_NUM, 2, "2".toList⟩, ⟨.TK_EOF, 0, []⟩] = false →
      "\tret\n" ∉ (main ["9cc".toList, "1 2".toList]).stdout ∧
      ∃ msg, (main ["9cc".toList, "1 2".toList]).result = .error (.error msg) ∧
        (main ["9cc".toList, "1 2".toList]).stderr = [msg, "\n"] ∧
        (main ["9cc".toList, "1 2".toList]).status = some 1) :=
  main_returns_iff_program "9cc".toList "1 2".toList _ (by decide)

/-- C4: white space put into an input at a place that is not between two
adjacent decimal digits (before the first token, after the last one, or
between two tokens) leaves the kinds, first characters and values of the
tokens unchanged, and `main` ends in the same way with the same output; read
from right to left, removing such white space changes nothing either. So
`1+2`, `1 + 2` and ` 1  +  2 ` give the same run. -/
theorem whitespace_insensitive :
    (∀ a0 a ws b : List Char, (∀ c ∈ ws, isspace c = true) → betweenDigits a b = false →
      (tokenize (a ++ (ws ++ b))).map (List.map Token.view) =
        (tokenize (a ++ b)).map (List.map Token.view) ∧
      main [a0, a ++ (ws ++ b)] = main [a0, a ++ b]) ∧
    (main ["9cc".toList, "1 + 2".toList] = main ["9cc".toList, "1+2".toList] ∧
      main ["9cc".toList, " 1  +  2 ".toList] = main ["9cc".toList, "1+2".toList]) := by
  refine ⟨fun a0 a ws b hws hcut => ?_, by decide⟩
  have h := tokenize_insert_spaces a ws b hws hcut
  exact ⟨h, main_congr a0 _ _ h⟩

theorem whitespace_insensitive_witness :
    (tokenize ("12".toList ++ (" \t".toList ++ "+3".toList))).map (List.map Token.view) =
        (tokenize ("12".toList ++ "+3".toList)).map (List.map Token.view) ∧
      main ["9cc".toList, "12".toList ++ (" \t".toList ++ "+3".toList)] =
        main ["9cc".toList, "12".toList ++ "+3".toList] :=
  whitespace_insensitive.1 "9cc".toList "12".toList " \t".toList "+3".toList (by decide)
    (by decide)

/-- C5: `tokenize` stops through `error()` exactly when some character of the
input is neither white space (`isspace`), nor a decimal digit, nor `+`, nor `-`,
and returns a token list exactly when there is no such character, whatever the
order of the characters: `++ 1 2 -` gives operator, operator, number, number,
operator, end. -/
theorem tokenize_fails_iff :
    (∀ p : List Char,
      (tokenize p = .error (.error "トークナイズできません") ↔
        ∃ c ∈ p, isspace c = false ∧ isdigit c = false ∧ c ≠ '+' ∧ c ≠ '-') ∧
      ((∃ toks, tokenize p = .ok toks) ↔
        ∀ c ∈ p, isspace c = true ∨ isdigit c = true ∨ c = '+' ∨ c = '-')) ∧
    (tokenize "++ 1 2 -".toList).map (List.map Token.kind) =
      .ok [.TK_RESERVED, .TK_RESERVED, .TK_NUM, .TK_NUM, .TK_RESERVED, .TK_EOF] := by
  refine ⟨fun p => ⟨⟨?_, ?_⟩, ⟨?_, ?_⟩⟩, by decide⟩
  · intro h
    rcases tokenize_total p with ⟨⟨toks, hok⟩, _⟩ | ⟨_, c, hc, hbad⟩
    · rw [hok] at h; cases h
    · exact ⟨c, hc, (isOther_iff c).mp hbad⟩
  · rintro ⟨c, hc, hbad⟩
    rcases tokenize_total p with ⟨_, hall⟩ | ⟨herr, _⟩
    · have := hall c hc
      rw [(isOther_iff c).mpr hbad] at this
      cases this
    · exact herr
  · rintro ⟨toks, hok⟩ c hc
    rcases tokenize_total p with ⟨_, hall⟩ | ⟨herr, _⟩
    · have h1 := hall c hc
      by_contra hcon
      simp only [not_or, Bool.not_eq_true] at hcon
      rw [(isOther_iff c).mpr ⟨hcon.1, hcon.2.1, hcon.2.2.1, hcon.2.2.2⟩] at h1
      cases h1
    · rw [hok] at herr; cases herr
  · intro hall
    rcases tokenize_total p with ⟨hok, _⟩ | ⟨_, c, hc, hbad⟩
    · exact hok
    · obtain ⟨h1, h2, h3, h4⟩ := (isOther_iff c).mp hbad
      rcases hall c hc with h | h | h | h
      · rw [h1] at h; cases h
      · rw [h2] at h; cases h
      · exact absurd h h3
      · exact absurd h h4

/-- C6, as stated, fails: a line feed is outside `0-9`, `+`, `-`, space and tab,
yet `isspace` accepts it, so on `1` followed by a line feed `main` returns 0
and writes a whole program. -/
theorem line_feed_is_skipped :
    (∃ c ∈ "1\n".toList,
        ¬ (isdigit c = true ∨ c = '+' ∨ c = '-' ∨ c = ' ' ∨ c = '\t')) ∧
    main ["9cc".toList, "1\n".toList] =
      ⟨[".intel_syntax noprefix\n", ".globl main\n", "main:\n", "\tmov rax, 1\n",
          "\tret\n"], [], .ok 0⟩ :=
  ⟨⟨'\n', by decide, by decide⟩, by decide⟩

/-- C6, amended: when the input holds a character that is neither white space
in the sense of `isspace` (space, tab, line feed, vertical tab, form feed,
carriage return), nor a decimal digit, nor `+`, nor `-`, the run ends through
the tokenizer's `error()` with exit status 1 and nothing is written to standard
output. -/
theorem unknown_character_fails (a0 p : List Char)
    (h : ∃ c ∈ p, isspace c = false ∧ isdigit c = false ∧ c ≠ '+' ∧ c ≠ '-') :
    main [a0, p] =
      ⟨[], ["トークナイズできません", "\n"], .error (.error "トークナイズできません")⟩ ∧
    (main [a0, p]).status = some 1 := by
  obtain ⟨c, hc, hbad⟩ := h
  have herr : tokenize p = .error (.error "トークナイズできません") := by
    rcases tokenize_total p with ⟨_, hall⟩ | ⟨herr, _⟩
    · have := hall c hc
      rw [(isOther_iff c).mpr hbad] at this
      cases this
    · exact herr
  have hm : main [a0, p] = abort [] (.error "トークナイズできません") := by
    rw [main_two, herr]
  rw [hm]
  exact ⟨rfl, rfl⟩

theorem unknown_character_fails_witness :
    main ["9cc".toList, "1*2".toList] =
      ⟨[], ["トークナイズできません", "\n"], .error (.error "トークナイズできません")⟩ ∧
    (main ["9cc".toList, "1*2".toList]).status = some 1 :=
  unknown_character_fails "9cc".toList "1*2".toList ⟨'*', by decide, by decide⟩

/-- C7: when `tokenize` fails, nothing has been written to standard output
when the process ends, wherever the failure is in the input. -/
theorem tokenize_failure_no_output (a0 p : List Char) (f : Fault)
    (h : tokenize p = .error f) :
    main [a0, p] = abort [] f ∧ (main [a0, p]).stdout = [] := by
  have hm : main [a0, p] = abort [] f := by rw [main_two, h]
  rw [hm]
  refine ⟨rfl, ?_⟩
  cases f <;> rfl

theorem tokenize_failure_no_output_witness :
    main ["9cc".toList, "1+2a".toList] = abort [] (.error "トークナイズできません") ∧
      (main ["9cc".toList, "1+2a".toList]).stdout = [] :=
  tokenize_failure_no_output "9cc".toList "1+2a".toList (.error "トークナイズできません")
    (by decide)

/-- C8, as stated, fails: the literal `2147483648` is accepted and its token
holds the negative value -2147483648. -/
theorem val_can_be_negative :
    tokenize "2147483648".toList =
      .ok [⟨.TK_NUM, -2147483648, "2147483648".toList⟩, ⟨.TK_EOF, 0, []⟩] ∧
    ¬ (0 ≤ (⟨.TK_NUM, -2147483648, "2147483648".toList⟩ : Token).val) := by
  decide

/-- C8, amended: in the tokens of an accepted input every number token holds
the result of `strtol` on its digit run (the base-10 value clamped to
`LONG_MAX`) reduced to a 32-bit two's-complement `int`; that value lies between
-2^31 and 2^31-1, is non-negative exactly when the clamped result modulo 2^32
is below 2^31, and so is non-negative whenever the run's value is at most
2^31-1. -/
theorem val_nonneg_iff (p : List Char) (toks : List Token) (h : tokenize p = .ok toks)
    (t : Token) (ht : t ∈ toks) (hk : t.kind = .TK_NUM) :
    t.val = toInt (min (decValue (t.str.takeWhile isdigit) : Int) LONG_MAX) ∧
    (-(2 ^ 31) ≤ t.val ∧ t.val ≤ 2 ^ 31 - 1) ∧
    (0 ≤ t.val ↔
      (min (decValue (t.str.takeWhile isdigit) : Int) LONG_MAX) % 2 ^ 32 < 2 ^ 31) ∧
    (decValue (t.str.takeWhile isdigit) ≤ 2 ^ 31 - 1 → 0 ≤ t.val) := by
  have hv : t.val = numVal t.str := by
    rcases tokenize_tokens p toks h t ht with ⟨hr, _⟩ | ⟨_, hv, _⟩ | rfl
    · rw [hk] at hr; cases hr
    · exact hv
    · cases hk
  rw [hv]
  refine ⟨rfl, toInt_range _, toInt_nonneg_iff _, ?_⟩
  intro hsmall
  have hs : (decValue (t.str.takeWhile isdigit) : Int) ≤ 2 ^ 31 - 1 := by
    norm_num at hsmall ⊢
    omega
  have h1 : min (decValue (t.str.takeWhile isdigit) : Int) LONG_MAX =
      (decValue (t.str.takeWhile isdigit) : Int) := by
    apply min_eq_left
    unfold LONG_MAX
    norm_num at hs ⊢
    omega
  unfold numVal
  rw [h1, toInt_of_small _ (by positivity) hs]
  positivity

theorem val_nonneg_iff_witness :
    (⟨.TK_NUM, 7, "007".toList⟩ : Token).val =
      toInt (min (decValue ("007".toList.takeWhile isdigit) : Int) LONG_MAX) ∧
    (-(2 ^ 31) ≤ (⟨.TK_NUM, 7, "007".toList⟩ : Token).val ∧
      (⟨.TK_NUM, 7, "007".toList⟩ : Token).val ≤ 2 ^ 31 - 1) ∧
    (0 ≤ (⟨.TK_NUM, 7, "007".toList⟩ : Token).val ↔
      (min (decValue ("007".toList.takeWhile isdigit) : Int) LONG_MAX) % 2 ^ 32 < 2 ^ 31) ∧
    (decValue ("007".toList.takeWhile isdigit) ≤ 2 ^ 31 - 1 →
      0 ≤ (⟨.TK_NUM, 7, "007".toList⟩ : Token).val) :=
  val_nonneg_iff "007".toList [⟨.TK_NUM, 7, "007".toList⟩, ⟨.TK_EOF, 0, []⟩] (by decide)
    ⟨.TK_NUM, 7, "007".toList⟩ (by decide) rfl

/-- C9: in an accepted input a maximal run `ds` of decimal digits (no digit
right before it, none right after it) gives exactly one token: the tokens are
those that start before the run, then one number token at the start of the
run, then the tokens of what follows the run, where scanning resumes. A number
token comes next only when the run is followed by white space. When the base-10
value of the run is at most 2^31-1 the token holds that value, leading zeros
not counting. -/
theorem digit_run_is_one_token (pre ds rest : List Char) (toks : List Token)
    (hne : ds ≠ []) (hds : ∀ c ∈ ds, isdigit c = true)
    (hpre : pre.getLast?.any isdigit = false) (hrest : rest.head?.any isdigit = false)
    (h : tokenize (pre ++ (ds ++ rest)) = .ok toks) :
    ∃ before after,
      toks = before ++
        ⟨.TK_NUM, toInt (min (decValue ds : Int) LONG_MAX), ds ++ rest⟩ :: after ∧
      tokenize rest = .ok after ∧
      (∀ t ∈ before, ∃ s, s ≠ [] ∧ t.str = s ++ (ds ++ rest)) ∧
      (∀ t ∈ after, t.str <:+ rest) ∧
      (∀ t ts, after = t :: ts → t.kind = .TK_NUM →
        ∃ c r, rest = c :: r ∧ isspace c = true) ∧
      (decValue ds ≤ 2 ^ 31 - 1 →
        toInt (min (decValue ds : Int) LONG_MAX) = (decValue ds : Int)) := by
  have hchars := chars_of_tokenize_ok _ toks h
  obtain ⟨ta, hta⟩ := tokenize_ok_of_chars pre
    (fun c hc => hchars c (List.mem_append_left _ hc))
  obtain ⟨after, hafter⟩ := tokenize_ok_of_chars rest
    (fun c hc => hchars c (List.mem_append_right _ (List.mem_append_right _ hc)))
  have hrun : tokenize (ds ++ rest) =
      .ok (⟨.TK_NUM, toInt (min (decValue ds : Int) LONG_MAX), ds ++ rest⟩ :: after) := by
    rw [tokenize_digits ds rest hne hds hrest, hafter]
    rfl
  have hcut : betweenDigits pre (ds ++ rest) = false := by
    simp [betweenDigits, hpre]
  have hall := tokenize_append pre (ds ++ rest) _ hrun hcut ta hta
  rw [h] at hall
  refine ⟨ta.dropLast.map (Token.followedBy (ds ++ rest)), after, ?_, hafter, ?_, ?_, ?_, ?_⟩
  · exact Except.ok.inj hall
  · intro t ht
    obtain ⟨u, hu, rfl⟩ := List.mem_map.mp ht
    exact ⟨u.str, (tokenize_body_str pre ta hta u hu).2, rfl⟩
  · exact tokenize_str_suffix rest after hafter
  · intro t ts hts hk
    cases rest with
    | nil =>
      rw [tokenize_nil, hts] at hafter
      cases hafter
      cases hk
    | cons c r =>
      refine ⟨c, r, rfl, ?_⟩
      by_contra hs
      have hd : isdigit c = false := by simpa using hrest
      by_cases hop : c = '+' ∨ c = '-'
      · rw [tokenize_op c r hop, hts] at hafter
        obtain ⟨ts2, _, h2⟩ := except_map_eq_ok _ _ _ hafter
        have h3 := (List.cons.inj h2).1
        rw [← h3] at hk
        cases hk
      · simp only [not_or] at hop
        rw [tokenize_other c r (by simpa using hs) hop.1 hop.2 hd] at hafter
        cases hafter
  · intro hsmall
    have hs : (decValue ds : Int) ≤ 2 ^ 31 - 1 := by
      norm_num at hsmall ⊢
      omega
    have h1 : min (decValue ds : Int) LONG_MAX = (decValue ds : Int) := by
      apply min_eq_left
      unfold LONG_MAX
      norm_num at hs ⊢
      omega
    rw [h1, toInt_of_small _ (by positivity) hs]

theorem digit_run_is_one_token_witness :
    ∃ before after,
      ([⟨.TK_NUM, 1, "1 007 2".toList⟩, ⟨.TK_NUM, 7, "007 2".toList⟩,
        ⟨.TK_NUM, 2, "2".toList⟩, ⟨.TK_EOF, 0, []⟩] : List Token) = before ++
        ⟨.TK_NUM, toInt (min (decValue "007".toList : Int) LONG_MAX),
          "007".toList ++ " 2".toList⟩ :: after ∧
      tokenize " 2".toList = .ok after ∧
      (∀ t ∈ before, ∃ s, s ≠ [] ∧ t.str = s ++ ("007".toList ++ " 2".toList)) ∧
      (∀ t ∈ after, t.str <:+ " 2".toList) ∧
      (∀ t ts, after = t :: ts → t.kind = .TK_NUM →
        ∃ c r, " 2".toList = c :: r ∧ isspace c = true) ∧
      (decValue "007".toList ≤ 2 ^ 31 - 1 →
        toInt (min (decValue "007".toList : Int) LONG_MAX) = (decValue "007".toList : Int)) :=
  digit_run_is_one_token "1 ".toList "007".toList " 2".toList _ (by decide) (by decide)
    (by decide) (by decide) (by decide)

/-- C10: the token list `tokenize` returns, also for the empty input, is
non-empty; its last token has kind `TK_EOF` and nothing after it, and no earlier
token has kind `TK_EOF`. -/
theorem tokenize_ends_in_eof (p : List Char) (toks : List Token)
    (h : tokenize p = .ok toks) :
    toks ≠ [] ∧ ∃ init last, toks = init ++ [last] ∧ last.kind = .TK_EOF ∧
      ∀ t ∈ init, t.kind ≠ .TK_EOF := by
  obtain ⟨init, last, hl, hk, hi⟩ := endsEOF_split toks (tokenize_endsEOF p toks h)
  refine ⟨?_, init, last, hl, hk, hi⟩
  rw [hl]
  simp

theorem tokenize_ends_in_eof_witness :
    ([⟨.TK_EOF, 0, []⟩] : List Token) ≠ [] ∧
      ∃ init last, ([⟨.TK_EOF, 0, []⟩] : List Token) = init ++ [last] ∧
        last.kind = .TK_EOF ∧ ∀ t ∈ init, t.kind ≠ .TK_EOF :=
  tokenize_ends_in_eof [] [⟨.TK_EOF, 0, []⟩] (by decide)

/-- C11: when the tokens of the input hold an operator or the end token where
the parser requires a number (as first token, or right after an operator that
follows a valid prefix `NUMBER (op NUMBER)*`), `main` ends through the
`error()` of `expect_number` with exit status 1, and `ret` is never written. -/
theorem number_required (a0 p : List Char) (pre : List Token) (t : Token)
    (rest : List Token) (htok : tokenize p = .ok (pre ++ t :: rest))
    (hpos : pre = [] ∨
      ∃ vp o, isValidPrefix vp = true ∧ isOperator o = true ∧ pre = vp ++ [o])
    (ht : t.kind = .TK_RESERVED ∨ t.kind = .TK_EOF) :
    (main [a0, p]).result = .error (.error "数値ではありません") ∧
    (main [a0, p]).stderr = ["数値ではありません", "\n"] ∧
    (main [a0, p]).status = some 1 ∧
    "\tret\n" ∉ (main [a0, p]).stdout := by
  have hk : t.kind ≠ .TK_NUM := by
    rcases ht with ht | ht <;> rw [ht] <;> decide
  have hm : main [a0, p] =
      abort (preamble ++ prefixLines pre) (.error "数値ではありません") := by
    rw [main_two, htok]
    exact compile_needs_number pre t rest hpos hk
  rw [hm]
  exact ⟨rfl, rfl, rfl, ret_not_mem_prefix_output pre⟩

theorem number_required_witness :
    (main ["9cc".toList, "1++2".toList]).result = .error (.error "数値ではありません") ∧
    (main ["9cc".toList, "1++2".toList]).stderr = ["数値ではありません", "\n"] ∧
    (main ["9cc".toList, "1++2".toList]).status = some 1 ∧
    "\tret\n" ∉ (main ["9cc".toList, "1++2".toList]).stdout :=
  number_required "9cc".toList "1++2".toList
    [⟨.TK_NUM, 1, "1++2".toList⟩, ⟨.TK_RESERVED, 0, "++2".toList⟩]
    ⟨.TK_RESERVED, 0, "+2".toList⟩ [⟨.TK_NUM, 2, "2".toList⟩, ⟨.TK_EOF, 0, []⟩]
    (by decide)
    (Or.inr ⟨[⟨.TK_NUM, 1, "1++2".toList⟩], ⟨.TK_RESERVED, 0, "++2".toList⟩,
      by decide, by decide, rfl⟩)
    (Or.inl rfl)

/-- C12: when the tokens of the input continue, after a valid prefix
`NUMBER (op NUMBER)*`, with a token that is neither the operator `+`, nor the
operator `-`, nor the end token, `main` ends through the `error()` of
`expect('-')`, whose message names `-`, with exit status 1 and without writing
`ret`. For the tokens `tokenize` returns such a token is a number. -/
theorem operator_required (a0 p : List Char) (vp : List Token) (t : Token)
    (rest : List Token) (htok : tokenize p = .ok (vp ++ t :: rest))
    (hvp : isValidPrefix vp = true) (he : t.kind ≠ .TK_EOF) (ht : isOperator t = false) :
    (main [a0, p]).result = .error (.error "\x27-\x27ではありません") ∧
    (main [a0, p]).stderr = ["\x27-\x27ではありません", "\n"] ∧
    (main [a0, p]).status = some 1 ∧
    "\tret\n" ∉ (main [a0, p]).stdout ∧
    t.kind = .TK_NUM := by
  have hm : main [a0, p] =
      abort (preamble ++ prefixLines vp)
        (.error ("\x27" ++ String.singleton '-' ++ "\x27ではありません")) := by
    rw [main_two, htok]
    exact compile_needs_operator vp t rest hvp he ht
  have hmsg : "\x27" ++ String.singleton '-' ++ "\x27ではありません" =
      "\x27-\x27ではありません" := by decide
  rw [hm, hmsg]
  refine ⟨rfl, rfl, rfl, ret_not_mem_prefix_output vp, ?_⟩
  rcases tokenize_tokens p _ htok t (by simp) with ⟨hr, _, c, r, hs, hc⟩ | ⟨hn, _⟩ | rfl
  · have : isOperator t = true := by
      rw [isOperator_spec]
      refine ⟨hr, ?_⟩
      rw [hs]
      exact hc
    rw [ht] at this
    cases this
  · exact hn
  · exact absurd rfl he

theorem operator_required_witness :
    (main ["9cc".toList, "1 2".toList]).result = .error (.error "\x27-\x27ではありません") ∧
    (main ["9cc".toList, "1 2".toList]).stderr = ["\x27-\x27ではありません", "\n"] ∧
    (main ["9cc".toList, "1 2".toList]).status = some 1 ∧
    "\tret\n" ∉ (main ["9cc".toList, "1 2".toList]).stdout ∧
    (⟨.TK_NUM, 2, "2".toList⟩ : Token).kind = .TK_NUM :=
  operator_required "9cc".toList "1 2".toList [⟨.TK_NUM, 1, "1 2".toList⟩]
    ⟨.TK_NUM, 2, "2".toList⟩ [⟨.TK_EOF, 0, []⟩] (by decide) (by decide) (by decide)
    (by decide)

/-- C13: at a position `i` of a token list whose token is `t`, `consume(op)`
returns true exactly when `t` is an operator token whose text starts with
`op`; then the cursor is the position `i + 1`, the successor of `t`, and
otherwise it stays at `i`. The call yields nothing but the flag and the cursor:
the cursor is a position in the same token list and there is no output. -/
theorem consume_spec (op : Char) (toks : List Token) (i : Nat) (t : Token)
    (next : List Token) (h : toks.drop i = t :: next) :
    toks.drop (i + 1) = next ∧
    (consume op (toks.drop i) = .ok (true, toks.drop (i + 1)) ∨
      consume op (toks.drop i) = .ok (false, toks.drop i)) ∧
    (consume op (toks.drop i) = .ok (true, toks.drop (i + 1)) ↔
      t.kind = .TK_RESERVED ∧ str0 t.str = op) ∧
    (consume op (toks.drop i) = .ok (false, toks.drop i) ↔
      ¬ (t.kind = .TK_RESERVED ∧ str0 t.str = op)) := by
  have hnext := drop_succ_of_drop toks i t next h
  rw [hnext, h]
  by_cases hit : t.kind = .TK_RESERVED ∧ str0 t.str = op
  · have hc := consume_hit op t next hit.1 hit.2
    rw [hc]
    simp [hit]
  · have hmiss : t.kind ≠ .TK_RESERVED ∨ str0 t.str ≠ op := by
      by_cases hk : t.kind = .TK_RESERVED
      · exact Or.inr (fun hx => hit ⟨hk, hx⟩)
      · exact Or.inl hk
    have hc := consume_miss op t next hmiss
    rw [hc]
    simp [hit]

theorem consume_spec_witness :
    ([⟨.TK_NUM, 1, "1+2".toList⟩, ⟨.TK_RESERVED, 0, "+2".toList⟩, ⟨.TK_NUM, 2, "2".toList⟩,
        ⟨.TK_EOF, 0, []⟩] : List Token).drop (1 + 1) =
      [⟨.TK_NUM, 2, "2".toList⟩, ⟨.TK_EOF, 0, []⟩] ∧
    (consume '+' (([⟨.TK_NUM, 1, "1+2".toList⟩, ⟨.TK_RESERVED, 0, "+2".toList⟩,
        ⟨.TK_NUM, 2, "2".toList⟩, ⟨.TK_EOF, 0, []⟩] : List Token).drop 1) =
        .ok (true, ([⟨.TK_NUM, 1, "1+2".toList⟩, ⟨.TK_RESERVED, 0, "+2".toList⟩,
          ⟨.TK_NUM, 2, "2".toList⟩, ⟨.TK_EOF, 0, []⟩] : List Token).drop (1 + 1)) ∨
      consume '+' (([⟨.TK_NUM, 1, "1+2".toList⟩, ⟨.TK_RESERVED, 0, "+2".toList⟩,
        ⟨.TK_NUM, 2, "2".toList⟩, ⟨.TK_EOF, 0, []⟩] : List Token).drop 1) =
        .ok (false, ([⟨.TK_NUM, 1, "1+2".toList⟩, ⟨.TK_RESERVED, 0, "+2".toList⟩,
          ⟨.TK_NUM, 2, "2".toList⟩, ⟨.TK_EOF, 0, []⟩] : List Token).drop 1)) ∧
    (consume '+' (([⟨.TK_NUM, 1, "1+2".toList⟩, ⟨.TK_RESERVED, 0, "+2".toList⟩,
        ⟨.TK_NUM, 2, "2".toList⟩, ⟨.TK_EOF, 0, []⟩] : List Token).drop 1) =
        .ok (true, ([⟨.TK_NUM, 1, "1+2".toList⟩, ⟨.TK_RESERVED, 0, "+2".toList⟩,
          ⟨.TK_NUM, 2, "2".toList⟩, ⟨.TK_EOF, 0, []⟩] : List Token).drop (1 + 1)) ↔
      (⟨.TK_RESERVED, 0, "+2".toList⟩ : Token).kind = .TK_RESERVED ∧
        str0 (⟨.TK_RESERVED, 0, "+2".toList⟩ : Token).str = '+') ∧
    (consume '+' (([⟨.TK_NUM, 1, "1+2".toList⟩, ⟨.TK_RESERVED, 0, "+2".toList⟩,
        ⟨.TK_NUM, 2, "2".toList⟩, ⟨.TK_EOF, 0, []⟩] : List Token).drop 1) =
        .ok (false, ([⟨.TK_NUM, 1, "1+2".toList⟩, ⟨.TK_RESERVED, 0, "+2".toList⟩,
          ⟨.TK_NUM, 2, "2".toList⟩, ⟨.TK_EOF, 0, []⟩] : List Token).drop 1) ↔
      ¬ ((⟨.TK_RESERVED, 0, "+2".toList⟩ : Token).kind = .TK_RESERVED ∧
        str0 (⟨.TK_RESERVED, 0, "+2".toList⟩ : Token).str = '+')) :=
  consume_spec '+' [⟨.TK_NUM, 1, "1+2".toList⟩, ⟨.TK_RESERVED, 0, "+2".toList⟩,
    ⟨.TK_NUM, 2, "2".toList⟩, ⟨.TK_EOF, 0, []⟩] 1 ⟨.TK_RESERVED, 0, "+2".toList⟩
    [⟨.TK_NUM, 2, "2".toList⟩, ⟨.TK_EOF, 0, []⟩] rfl

/-- C14: at a position `i` of a token list whose token is `t`, `expect_number`
succeeds exactly when `t` is a number token; it then returns the value of `t`
and the cursor is the position `i + 1`, the successor of `t`; otherwise it
ends the run through `error()` with its message and exit status 1, and
returns no value. -/
theorem expect_number_spec (toks : List Token) (i : Nat) (t : Token) (next : List Token)
    (h : toks.drop i = t :: next) :
    toks.drop (i + 1) = next ∧
    ((∃ r, expect_number (toks.drop i) = .ok r) ↔ t.kind = .TK_NUM) ∧
    (t.kind = .TK_NUM → expect_number (toks.drop i) = .ok (t.val, toks.drop (i + 1))) ∧
    (t.kind ≠ .TK_NUM →
      expect_number (toks.drop i) = .error (.error "数値ではありません") ∧
      ∀ out, (abort out (.error "数値ではありません")).status = some 1 ∧
        (abort out (.error "数値ではありません")).stderr = ["数値ではありません", "\n"]) := by
  have hnext := drop_succ_of_drop toks i t next h
  rw [hnext, h]
  refine ⟨rfl, ⟨?_, ?_⟩, ?_, ?_⟩
  · rintro ⟨r, hr⟩
    by_contra hk
    rw [expect_number_miss t next hk] at hr
    cases hr
  · intro hk
    exact ⟨_, expect_number_hit t next hk⟩
  · exact expect_number_hit t next
  · intro hk
    exact ⟨expect_number_miss t next hk, fun _ => ⟨rfl, rfl⟩⟩

theorem expect_number_spec_witness :
    ([⟨.TK_NUM, 7, "7".toList⟩, ⟨.TK_EOF, 0, []⟩] : List Token).drop (0 + 1) =
      [⟨.TK_EOF, 0, []⟩] ∧
    ((∃ r, expect_number (([⟨.TK_NUM, 7, "7".toList⟩, ⟨.TK_EOF, 0, []⟩] :
        List Token).drop 0) = .ok r) ↔ (⟨.TK_NUM, 7, "7".toList⟩ : Token).kind = .TK_NUM) ∧
    ((⟨.TK_NUM, 7, "7".toList⟩ : Token).kind = .TK_NUM →
      expect_number (([⟨.TK_NUM, 7, "7".toList⟩, ⟨.TK_EOF, 0, []⟩] : List Token).drop 0) =
        .ok ((⟨.TK_NUM, 7, "7".toList⟩ : Token).val,
          ([⟨.TK_NUM, 7, "7".toList⟩, ⟨.TK_EOF, 0, []⟩] : List Token).drop (0 + 1))) ∧
    ((⟨.TK_NUM, 7, "7".toList⟩ : Token).kind ≠ .TK_NUM →
      expect_number (([⟨.TK_NUM, 7, "7".toList⟩, ⟨.TK_EOF, 0, []⟩] : List Token).drop 0) =
        .error (.error "数値ではありません") ∧
      ∀ out, (abort out (.error "数値ではありません")).status = some 1 ∧
        (abort out (.error "数値ではありません")).stderr = ["数値ではありません", "\n"]) :=
  expect_number_spec [⟨.TK_NUM, 7, "7".toList⟩, ⟨.TK_EOF, 0, []⟩] 0
    ⟨.TK_NUM, 7, "7".toList⟩ [⟨.TK_EOF, 0, []⟩] rfl

/-- C15: when the number of arguments is not exactly one (`argc != 2`), `main`
returns 1, writes only the usage message, to standard error, and does nothing
else, whatever the arguments are; with `argc == 2` it never returns 1 and never
writes the usage message. -/
theorem usage_error (argv : List (List Char)) :
    (argv.length ≠ 2 →
      main argv = ⟨[], ["引数の個数が正しくありません\n"], .ok 1⟩ ∧
      (main argv).status = some 1 ∧ (main argv).stdout = []) ∧
    (argv.length = 2 →
      (main argv).result ≠ .ok 1 ∧
      (main argv).stderr ≠ ["引数の個数が正しくありません\n"]) := by
  constructor
  · intro h
    have hm : main argv = ⟨[], ["引数の個数が正しくありません\n"], .ok 1⟩ := by
      simp only [main, if_pos h]
    rw [hm]
    exact ⟨rfl, rfl, rfl⟩
  · intro h
    match argv, h with
    | [a0, p], _ =>
      rcases main_two_cases a0 p with ⟨out, f, hm⟩ | ⟨out, hm⟩
      · rw [hm, abort_result]
        exact ⟨by simp, abort_stderr_ne_usage out f⟩
      · rw [hm]
        exact ⟨by simp, by simp⟩

theorem usage_error_witness :
    main ["9cc".toList, "1".toList, "2".toList] =
        ⟨[], ["引数の個数が正しくありません\n"], .ok 1⟩ ∧
      (main ["9cc".toList, "1".toList, "2".toList]).status = some 1 ∧
      (main ["9cc".toList, "1".toList, "2".toList]).stdout = [] :=
  (usage_error ["9cc".toList, "1".toList, "2".toList]).1 (by decide)

/-- C16: with the cursor seen as an index into the token list, `consume` leaves
the index as it is or adds one to it, `expect` and `expect_number` add one to
it when they return, and `at_eof` yields a flag only, so that it cannot change
it. Hence along the run of `main` on any token list the indices at which the
primitives are called start at 0, go up by zero or one from each call to the
next, and never decrease: no token is visited again once the cursor is past
it. -/
theorem cursor_never_rewound (toks : List Token) :
    (∀ i op b c, consume op (toks.drop i) = .ok (b, c) →
      c = toks.drop i ∨ (i < toks.length ∧ c = toks.drop (i + 1))) ∧
    (∀ i op c, expect op (toks.drop i) = .ok c →
      i < toks.length ∧ c = toks.drop (i + 1)) ∧
    (∀ i v c, expect_number (toks.drop i) = .ok (v, c) →
      i < toks.length ∧ c = toks.drop (i + 1)) ∧
    (compileLog toks).1 = compile toks ∧
    (∀ a0 p, tokenize p = .ok toks → main [a0, p] = (compileLog toks).1) ∧
    ∃ idxs : List Nat, (compileLog toks).2 = idxs.map (fun i => toks.drop i) ∧
      List.Chain (fun i j => j = i ∨ j = i + 1) 0 idxs ∧
      idxs.Pairwise (fun i j => i ≤ j) := by
  have hadv : ∀ i (t : Token) (c : List Token), toks.drop i = t :: c →
      i < toks.length ∧ c = toks.drop (i + 1) := by
    intro i t c h
    refine ⟨?_, (drop_succ_of_drop toks i t c h).symm⟩
    by_contra hge
    rw [List.drop_eq_nil_iff.mpr (by omega)] at h
    cases h
  refine ⟨?_, ?_, ?_, compileLog_fst toks, ?_, ?_⟩
  · intro i op b c h
    rcases consume_inv _ _ _ _ h with ⟨_, hc⟩ | ⟨_, t, ht, _⟩
    · exact Or.inl hc
    · exact Or.inr (hadv i t c ht)
  · intro i op c h
    obtain ⟨t, ht, _⟩ := expect_inv _ _ _ h
    exact hadv i t c ht
  · intro i v c h
    obtain ⟨t, ht, _⟩ := expect_number_inv _ _ _ h
    exact hadv i t c ht
  · intro a0 p h
    rw [main_two, h, compileLog_fst]
  · obtain ⟨idxs, h1, h2, _⟩ :=
      chain_index toks (compileLog toks).2 0 (Nat.zero_le _) (compileLog_chain toks).1
    refine ⟨idxs, h1, h2, ?_⟩
    have hle : List.Chain (fun i j => i ≤ j) 0 idxs :=
      List.Chain.imp (fun a b hab => by rcases hab with rfl | rfl <;> omega) h2
    exact (List.chain_iff_pairwise.mp hle).of_cons

theorem cursor_never_rewound_witness :
    ([⟨.TK_NUM, 2, "2".toList⟩, ⟨.TK_EOF, 0, []⟩] : List Token) =
        ([⟨.TK_NUM, 1, "1+2".toList⟩, ⟨.TK_RESERVED, 0, "+2".toList⟩,
          ⟨.TK_NUM, 2, "2".toList⟩, ⟨.TK_EOF, 0, []⟩] : List Token).drop 1 ∨
      (1 < ([⟨.TK_NUM, 1, "1+2".toList⟩, ⟨.TK_RESERVED, 0, "+2".toList⟩,
          ⟨.TK_NUM, 2, "2".toList⟩, ⟨.TK_EOF, 0, []⟩] : List Token).length ∧
        ([⟨.TK_NUM, 2, "2".toList⟩, ⟨.TK_EOF, 0, []⟩] : List Token) =
          ([⟨.TK_NUM, 1, "1+2".toList⟩, ⟨.TK_RESERVED, 0, "+2".toList⟩,
            ⟨.TK_NUM, 2, "2".toList⟩, ⟨.TK_EOF, 0, []⟩] : List Token).drop (1 + 1)) :=
  (cursor_never_rewound [⟨.TK_NUM, 1, "1+2".toList⟩, ⟨.TK_RESERVED, 0, "+2".toList⟩,
    ⟨.TK_NUM, 2, "2".toList⟩, ⟨.TK_EOF, 0, []⟩]).1 1 '+' true
    [⟨.TK_NUM, 2, "2".toList⟩, ⟨.TK_EOF, 0, []⟩] (by decide)

/-- C17: on the tokens of an accepted input every primitive of the run of
`main` is called with the cursor at a token of the list, so at or before the
end token and never at a null pointer, whether the run returns or stops in
`error()`: `consume` and `expect` move only over an operator token,
`expect_number` only over a number token, and every token that is not the end
token has a successor. -/
theorem cursor_never_null (a0 p : List Char) (toks : List Token)
    (h : tokenize p = .ok toks) :
    main [a0, p] = (compileLog toks).1 ∧
    (∀ c ∈ (compileLog toks).2, ∃ i, i < toks.length ∧ c = toks.drop i) ∧
    (main [a0, p]).result ≠ .error .nullDeref ∧
    (∀ i t, toks[i]? = some t → t.kind ≠ .TK_EOF → i + 1 < toks.length) ∧
    (∀ op t next c, consume op (t :: next) = .ok (true, c) →
      t.kind = .TK_RESERVED ∧ c = next) ∧
    (∀ op t next c, expect op (t :: next) = .ok c → t.kind = .TK_RESERVED ∧ c = next) ∧
    (∀ t next v c, expect_number (t :: next) = .ok (v, c) →
      t.kind = .TK_NUM ∧ c = next) := by
  have he := tokenize_endsEOF p toks h
  refine ⟨by rw [main_two, h, compileLog_fst], ?_, ?_, endsEOF_successor toks he, ?_, ?_, ?_⟩
  · obtain ⟨hch, hall⟩ := compileLog_chain toks
    obtain ⟨idxs, h1, _, _⟩ := chain_index toks (compileLog toks).2 0 (Nat.zero_le _) hch
    intro c hc
    have hce := hall he c hc
    rw [h1] at hc
    obtain ⟨i, _, hi⟩ := List.mem_map.mp hc
    refine ⟨i, ?_, hi.symm⟩
    by_contra hge
    have hnil : toks.drop i = [] := List.drop_eq_nil_iff.mpr (by omega)
    simp only [hnil] at hi
    rw [← hi] at hce
    simp [endsEOF] at hce
  · rcases main_ends [a0, p] with ⟨n, hn⟩ | ⟨msg, hmsg⟩
    · rw [hn]; simp
    · rw [hmsg]; simp
  · intro op t next c hc
    rcases consume_inv _ _ _ _ hc with ⟨hb, _⟩ | ⟨_, u, hu, hk, _⟩
    · cases hb
    · cases hu
      exact ⟨hk, rfl⟩
  · intro op t next c hc
    obtain ⟨u, hu, hk, _⟩ := expect_inv _ _ _ hc
    cases hu
    exact ⟨hk, rfl⟩
  · intro t next v c hc
    obtain ⟨u, hu, hk, _⟩ := expect_number_inv _ _ _ hc
    cases hu
    exact ⟨hk, rfl⟩

theorem cursor_never_null_witness :
    main ["9cc".toList, "1+".toList] =
      (compileLog [⟨.TK_NUM, 1, "1+".toList⟩, ⟨.TK_RESERVED, 0, "+".toList⟩,
        ⟨.TK_EOF, 0, []⟩]).1 ∧
    (∀ c ∈ (compileLog [⟨.TK_NUM, 1, "1+".toList⟩, ⟨.TK_RESERVED, 0, "+".toList⟩,
        ⟨.TK_EOF, 0, []⟩]).2,
      ∃ i, i < ([⟨.TK_NUM, 1, "1+".toList⟩, ⟨.TK_RESERVED, 0, "+".toList⟩,
          ⟨.TK_EOF, 0, []⟩] : List Token).length ∧
        c = ([⟨.TK_NUM, 1, "1+".toList⟩, ⟨.TK_RESERVED, 0, "+".toList⟩,
          ⟨.TK_EOF, 0, []⟩] : List Token).drop i) ∧
    (main ["9cc".toList, "1+".toList]).result ≠ .error .nullDeref ∧
    (∀ i t, ([⟨.TK_NUM, 1, "1+".toList⟩, ⟨.TK_RESERVED, 0, "+".toList⟩,
        ⟨.TK_EOF, 0, []⟩] : List Token)[i]? = some t → t.kind ≠ .TK_EOF →
      i + 1 < ([⟨.TK_NUM, 1, "1+".toList⟩, ⟨.TK_RESERVED, 0, "+".toList⟩,
        ⟨.TK_EOF, 0, []⟩] : List Token).length) ∧
    (∀ op t next c, consume op (t :: next) = .ok (true, c) →
      t.kind = .TK_RESERVED ∧ c = next) ∧
    (∀ op t next c, expect op (t :: next) = .ok c → t.kind = .TK_RESERVED ∧ c = next) ∧
    (∀ t next v c, expect_number (t :: next) = .ok (v, c) →
      t.kind = .TK_NUM ∧ c = next) :=
  cursor_never_null "9cc".toList "1+".toList _ (by decide)

/-- C18: when `tokenize` accepts the input but its tokens do not match the
grammar, standard output holds, when the run stops, exactly the three preamble
lines and the instruction lines of the longest prefix `NUMBER (op NUMBER)*` of
the tokens, with no line for the failing element and without `ret`: `+` gives
the preamble only, `1+` and `1 2` the preamble and `mov rax, 1`, `1+2+` the
preamble, `mov rax, 1` and `add rax, 2`. -/
theorem rejected_output :
    (∀ (a0 p : List Char) (toks : List Token), tokenize p = .ok toks →
      isProgram toks = false →
      (main [a0, p]).stdout =
        [".intel_syntax noprefix\n", ".globl main\n", "main:\n"] ++
          prefixLines (validPrefix toks) ∧
      "\tret\n" ∉ (main [a0, p]).stdout ∧
      validPrefix toks <+: toks ∧
      (validPrefix toks ≠ [] → isValidPrefix (validPrefix toks) = true) ∧
      (∀ q, q <+: toks → isValidPrefix q = true → q <+: validPrefix toks)) ∧
    (main ["9cc".toList, "+".toList]).stdout =
      [".intel_syntax noprefix\n", ".globl main\n", "main:\n"] ∧
    (main ["9cc".toList, "1+".toList]).stdout =
      [".intel_syntax noprefix\n", ".globl main\n", "main:\n", "\tmov rax, 1\n"] ∧
    (main ["9cc".toList, "1 2".toList]).stdout =
      [".intel_syntax noprefix\n", ".globl main\n", "main:\n", "\tmov rax, 1\n"] ∧
    (main ["9cc".toList, "1+2+".toList]).stdout =
      [".intel_syntax noprefix\n", ".globl main\n", "main:\n", "\tmov rax, 1\n",
        "\tadd rax, 2\n"] := by
  refine ⟨?_, by decide, by decide, by decide, by decide⟩
  intro a0 p toks htok hrej
  obtain ⟨msg, hrun⟩ := compile_rejects_lines toks (tokenize_endsEOF p toks htok) hrej
  have hm : main [a0, p] =
      abort (preamble ++ prefixLines (validPrefix toks)) (.error msg) := by
    rw [main_two, htok]
    exact hrun
  obtain ⟨h1, h2, h3⟩ := validPrefix_longest toks
  rw [hm]
  exact ⟨rfl, ret_not_mem_prefix_output _, h1, h2, h3⟩

theorem rejected_output_witness :
    (main ["9cc".toList, "7-8 9".toList]).stdout =
        [".intel_syntax noprefix\n", ".globl main\n", "main:\n"] ++
          prefixLines (validPrefix [⟨.TK_NUM, 7, "7-8 9".toList⟩,
            ⟨.TK_RESERVED, 0, "-8 9".toList⟩, ⟨.TK_NUM, 8, "8 9".toList⟩,
            ⟨.TK_NUM, 9, "9".toList⟩, ⟨.TK_EOF, 0, []⟩]) ∧
      "\tret\n" ∉ (main ["9cc".toList, "7-8 9".toList]).stdout :=
  ⟨(rejected_output.1 "9cc".toList "7-8 9".toList
      [⟨.TK_NUM, 7, "7-8 9".toList⟩, ⟨.TK_RESERVED, 0, "-8 9".toList⟩,
        ⟨.TK_NUM, 8, "8 9".toList⟩, ⟨.TK_NUM, 9, "9".toList⟩, ⟨.TK_EOF, 0, []⟩]
      (by decide) (by decide)).1,
    (rejected_output.1 "9cc".toList "7-8 9".toList
      [⟨.TK_NUM, 7, "7-8 9".toList⟩, ⟨.TK_RESERVED, 0, "-8 9".toList⟩,
        ⟨.TK_NUM, 8, "8 9".toList⟩, ⟨.TK_NUM, 9, "9".toList⟩, ⟨.TK_EOF, 0, []⟩]
      (by decide) (by decide)).2.1⟩

/-- C19: the program terminates on every input. An iteration of the loop of
`tokenize` fails or moves the position on by at least one character (the number
branch, entered at a digit, reads at least that digit), and an accepted input
gives at most one token per character and the end token. A turn of the loop of
`main` stops the run, returns, or moves the cursor over exactly one operator
and one number, so that the loop, started after the first token, ends within
half the number of tokens turns: one step more than that for the last test of
the condition is enough, and more steps change nothing. Hence every run of
`main` ends by a return or through `error()`. -/
theorem program_terminates :
    (∀ p : List Char,
      (∃ toks, tokenize p = .ok toks ∧ toks.length ≤ p.length + 1) ∨
      tokenize p = .error (.error "トークナイズできません")) ∧
    (∀ fuel c rest cur,
      tokenizeLoop (fuel + 1) (c :: rest) cur = .error (.error "トークナイズできません") ∨
      ∃ p' cur', p'.length < (c :: rest).length ∧
        tokenizeLoop (fuel + 1) (c :: rest) cur = tokenizeLoop fuel p' cur') ∧
    (∀ c rest, isdigit c = true → (strtol (c :: rest)).2.length < (c :: rest).length) ∧
    (∀ token out,
      (∃ f, f ≠ .outOfFuel ∧ ∀ fuel, mainLoop (fuel + 1) token out = abort out f) ∨
      (∀ fuel, mainLoop (fuel + 1) token out = ⟨out ++ ["\tret\n"], [], .ok 0⟩) ∨
      (∃ o n rest line, token = o :: n :: rest ∧ o.kind = .TK_RESERVED ∧
        n.kind = .TK_NUM ∧
        ∀ fuel, mainLoop (fuel + 1) token out = mainLoop fuel rest (out ++ [line]))) ∧
    (∀ (toks : List Token) out fuel, toks.length / 2 < fuel →
      mainLoop fuel toks.tail out = mainLoop (toks.length / 2 + 1) toks.tail out ∧
      (mainLoop fuel toks.tail out).result ≠ .error .outOfFuel) ∧
    (∀ argv, (∃ n, (main argv).result = .ok n) ∨
      ∃ msg, (main argv).result = .error (.error msg)) := by
  refine ⟨?_, tokenizeLoop_progress, strtol_advances, mainLoop_turn, ?_, main_ends⟩
  · intro p
    rcases tokenize_total p with ⟨⟨toks, hok⟩, _⟩ | ⟨herr, _⟩
    · exact Or.inl ⟨toks, hok, tokenize_length p toks hok⟩
    · exact Or.inr herr
  · intro toks out fuel hf
    have hl : toks.tail.length = toks.length - 1 := by simp
    exact mainLoop_fuel fuel (toks.length / 2 + 1) toks.tail out (by omega) (by omega)

theorem program_terminates_witness :
    (strtol ('4' :: "2+1".toList)).2.length < ('4' :: "2+1".toList).length :=
  program_terminates.2.2.1 '4' "2+1".toList (by decide)

end NineCC
